import Mathlib

/-
A shallow embedding of the `ring` package of the ringhash repository
(ring hashes with virtual slices, a key store and a notification log),
together with theorems settling the frozen claims about it.

Go `map` values are modelled extensionally as functions into `Option`;
the map `empty` (whose keys always equal their values) is modelled as an
insertion-ordered duplicate-free list of its keys; notification delivery
is modelled as a ghost log `ops` of the emitted events, in emission order.
Machine integers (`uint64` hash values) are modelled as `Nat`: the hash
function is a caller-injectable function, so every theorem quantifying
over it covers all `uint64`-valued instances; `int` values (`vFactor`,
`Order`, slice indices passed to `removeIndex`) are modelled as `Int`.
-/

namespace Ringhash

set_option linter.unusedSectionVars false

/-- Errors of the ring package, one constructor per `errors.New` value
in the source. -/
inductive Err where
  | invalidBaseVFactor
  | nodeNotFound
  | sliceHashCollision
  | outOfBounds
  | keyAlreadyExists
  | nilKey
  | keyNotFound
  | nodeAlreadyExists
  | sliceAlreadyExists
deriving DecidableEq

/-- InnerKey: a single unique key with its notification order. -/
structure InnerKey where
  key : String
  order : Int
deriving DecidableEq

/-- Key: an InnerKey together with its payload value. -/
structure KeyV (T : Type) where
  innerKey : InnerKey
  value : T
deriving DecidableEq

/-- Node: a ring member, identified by name, with its virtual factor. -/
structure NodeV where
  identifier : String
  vFactor : Int
deriving DecidableEq

/-- Op: one notification event, as handed to `notify`. -/
structure Op (T : Type) where
  key : String
  node : String
  payload : T
  removed : Bool
  updated : Bool
  ringChange : Bool
deriving DecidableEq

/-- The caller-injectable configuration fields of the Ring struct:
`Hash`, `BaseVFactor` and `ToSliceName`. -/
structure RingCfg where
  Hash : String → Nat
  BaseVFactor : Int
  ToSliceName : String → Int → String

/-- The state of the Ring struct. `ops` is the ghost log of emitted
notifications (the model of the channel-based delivery). -/
structure RingState (T : Type) where
  slices : List Nat
  hashes : List Nat
  empty : List Nat
  nodesBySlice : Nat → Option String
  vFactorByNode : String → Option Int
  slicesByHash : Nat → Option Nat
  keysByHash : Nat → List InnerKey
  contentByKey : String → Option T
  hashesByKey : String → Option Nat
  ops : List (Op T)

/-- Map update, `m[k] = v`. -/
def mupd {α β : Type} [DecidableEq α] (m : α → Option β) (k : α) (v : β) : α → Option β :=
  fun x => if x = k then some v else m x

/-- Map deletion, `delete(m, k)`. -/
def mdel {α β : Type} [DecidableEq α] (m : α → Option β) (k : α) : α → Option β :=
  fun x => if x = k then none else m x

/-- Update of the `keysByHash` map (whose missing entries read as `[]`,
the zero value of a Go slice). -/
def lupd (m : Nat → List InnerKey) (k : Nat) (v : List InnerKey) : Nat → List InnerKey :=
  fun x => if x = k then v else m x

/-- Setting `empty[h] = h` on the Go map: a no-op when the key is
present, an append in insertion order when it is not. -/
def emptyInsert (l : List Nat) (h : Nat) : List Nat :=
  if h ∈ l then l else l ++ [h]

/-- findIndex: the index where `val` is located, or should be inserted.
The source runs `sort.Search` (binary search for the first index with
`arr[i] >= val`); on the sorted sequences the ring maintains this equals
the first index satisfying the predicate, which is what the linear
recursion below computes. -/
def findIndex : List Nat → Nat → Nat
  | [], _ => 0
  | a :: t, v => if v ≤ a then 0 else findIndex t v + 1

/-- findKeyIndex: `sort.Search` for the first index with
`t[i].Order >= k.Order`, modelled as the linear first-satisfying index. -/
def findKeyIndex : List InnerKey → InnerKey → Nat
  | [], _ => 0
  | a :: r, k => if k.order ≤ a.order then 0 else findKeyIndex r k + 1

/-- findKeyByName: index of the first key with the given name, `-1` when
absent. -/
def findKeyByName (keys : List InnerKey) (name : String) : Int :=
  match keys.findIdx? (fun k => k.key == name) with
  | some i => (i : Int)
  | none => -1

/-- findPrevIndex: circular previous index (`0` wraps to `len-1`).
For an empty sequence the Go code would produce `-1` and panic at the
use site; the `Nat` truncation below yields `0`, and every use in the
source is on a non-empty sequence. -/
def findPrevIndex (arr : List Nat) (idx : Nat) : Nat :=
  if idx = 0 then arr.length - 1 else idx - 1

/-- findNextIndex: circular next index (`len-1` wraps to `0`). Written
as `idx+1 = len` which agrees with the source's `idx == len(arr)-1` for
every `idx ≥ 0`, including the empty sequence. -/
def findNextIndex (arr : List Nat) (idx : Nat) : Nat :=
  if idx + 1 = arr.length then 0 else idx + 1

/-- insertPreserveOrder: insert `val` at the position returned by the
finder, returning the new sequence and that position. -/
def insertPreserveOrder {α : Type} (arr : List α) (val : α) (fi : List α → α → Nat) :
    List α × Nat :=
  let idx := fi arr val
  (arr.take idx ++ val :: arr.drop idx, idx)

/-- removeIndex: remove the element at `idx`. An empty sequence returns
`(nil, nil)`; an out-of-bounds index returns the sequence unchanged with
`ErrOutOfBounds`. -/
def removeIndex {α : Type} (arr : List α) (idx : Int) : List α × Option Err :=
  if arr.length = 0 then ([], none)
  else if idx < 0 ∨ (arr.length : Int) ≤ idx then (arr, some Err.outOfBounds)
  else (arr.take idx.toNat ++ arr.drop (idx.toNat + 1), none)

variable {T : Type} [Inhabited T]

/-- notify: append the event to the ghost log (channel delivery and
watcher filtering are outside this model). -/
def notify (s : RingState T) (o : Op T) : RingState T :=
  { s with ops := s.ops ++ [o] }

/-- The events emitted by a `for _, key := range ring.keysByHash[hash]`
notification loop: one event per key, in stored key order, with the
payload read from `contentByKey` (zero value when absent) and
`RingChange: true`. -/
def keyOps (keys : List InnerKey) (content : String → Option T) (node : String)
    (removed : Bool) : List (Op T) :=
  keys.map fun k =>
    { key := k.key, node := node, payload := (content k.key).getD default,
      removed := removed, updated := false, ringChange := true }

/-- convertHash: notify removal of every key at `h` against the old
owner, reassign `h` to `slice`, then notify addition against `slice`. -/
def convertHash (s : RingState T) (slice h : Nat) : RingState T :=
  let prevSlice := (s.slicesByHash h).getD 0
  let s1 := { s with
    ops := s.ops ++ keyOps (s.keysByHash h) s.contentByKey ((s.nodesBySlice prevSlice).getD "") true }
  let s2 := { s1 with slicesByHash := mupd s1.slicesByHash h slice }
  { s2 with
    ops := s2.ops ++ keyOps (s2.keysByHash h) s2.contentByKey ((s2.nodesBySlice slice).getD "") false }

/-- The `for { ... }` loop of convertHashes: normalise index `len` to
`0`, stop at `e`, otherwise convert the hash at the current index and
advance. The Go loop terminates within `len+1` iterations for every
in-range index pair, so it is run on that much fuel. -/
def convertLoop (slice e : Nat) : Nat → RingState T → Nat → RingState T
  | 0, s, _ => s
  | fuel + 1, s, start =>
    let start' := if start = s.hashes.length then 0 else start
    if start' = e then s
    else convertLoop slice e fuel (convertHash s slice (s.hashes.getD start' 0)) (start' + 1)

/-- convertHashes: reassign a circular index range of the sorted hash
sequence to `slice`. If `circle` with `start = end`, or the range spans
the whole sequence, every hash is converted; otherwise the range is
walked circularly from `start` (inclusive) to `end` (exclusive). -/
def convertHashes (s : RingState T) (slice hashStartIndex hashEndIndex : Nat)
    (circle : Bool) : RingState T :=
  if (circle ∧ hashStartIndex = hashEndIndex) ∨
      (hashStartIndex = 0 ∧ hashEndIndex = s.hashes.length) then
    s.hashes.foldl (fun t h => convertHash t slice h) s
  else
    let e := if hashEndIndex = s.hashes.length then 0 else hashEndIndex
    convertLoop slice e (s.hashes.length + 1) s hashStartIndex

/-- The body of insertSlice's first-slice loop over the unassigned
pool: record the position's new owner, notify every key at it, then
delete it from the pool. -/
def drainStep (slice : Nat) (t : RingState T) (h : Nat) : RingState T :=
  let t1 := { t with slicesByHash := mupd t.slicesByHash h slice }
  let t2 := { t1 with
    ops := t1.ops ++ keyOps (t1.keysByHash h) t1.contentByKey ((t1.nodesBySlice slice).getD "") false }
  { t2 with empty := t2.empty.erase h }

/-- insertSlice: fail when the position already has an owner; otherwise
insert the slice and either drain the unassigned pool (first slice) or
take over the range up to the next slice clockwise. -/
def insertSlice (s : RingState T) (slice : Nat) (node : String) :
    Option Err × RingState T :=
  if (s.nodesBySlice slice).isSome then (some Err.sliceAlreadyExists, s)
  else
    let p := insertPreserveOrder s.slices slice findIndex
    let idx := p.2
    let s := { s with slices := p.1, nodesBySlice := mupd s.nodesBySlice slice node }
    if s.slices.length = 1 then
      (none, s.empty.foldl (drainStep slice) s)
    else
      let nextSlice := s.slices.getD (findNextIndex s.slices idx) 0
      (none, convertHashes s slice (findIndex s.hashes slice) (findIndex s.hashes nextSlice)
        (decide (nextSlice < slice)))

/-- The body of removeSlice's final-slice loop over the hash sequence:
notify removal of every key at the position, then move the position into
the unassigned pool. -/
def poolStep (slice : Nat) (t : RingState T) (h : Nat) : RingState T :=
  let t1 := { t with
    ops := t.ops ++ keyOps (t.keysByHash h) t.contentByKey ((t.nodesBySlice slice).getD "") true }
  { t1 with empty := emptyInsert t1.empty h }

/-- removeSlice: no-op when the position has no owner; otherwise either
move every hash into the unassigned pool (last slice) or hand the
removed slice's range to the previous slice clockwise, then delete the
slice. -/
def removeSlice (s : RingState T) (slice : Nat) : RingState T :=
  if (s.nodesBySlice slice).isNone then s
  else
    let sliceIdx := findIndex s.slices slice
    let s' :=
      if s.slices.length = 1 then
        s.hashes.foldl (poolStep slice) s
      else
        let prevSlice := s.slices.getD (findPrevIndex s.slices sliceIdx) 0
        let nextSlice := s.slices.getD (findNextIndex s.slices sliceIdx) 0
        convertHashes s prevSlice (findIndex s.hashes slice) (findIndex s.hashes nextSlice)
          (decide (nextSlice < slice))
    { s' with slices := (removeIndex s'.slices (sliceIdx : Int)).1,
              nodesBySlice := mdel s'.nodesBySlice slice }

/-- The list of virtual-slice indices `[a, b)` iterated by the node
lifecycle loops (Go `for idx := a; idx < b; idx++` over ints). -/
def idxRange (a b : Int) : List Int :=
  (List.range (b - a).toNat).map fun i => a + (i : Int)

/-- The slice-insertion loop of CreateNode: insert each virtual slice in
index order, returning the first error as-is. -/
def insertSlicesFrom (cfg : RingCfg) (id : String) :
    List Int → RingState T → Option Err × RingState T
  | [], s => (none, s)
  | i :: rest, s =>
    match insertSlice s (cfg.Hash (cfg.ToSliceName id i)) id with
    | (some e, s') => (some e, s')
    | (none, s') => insertSlicesFrom cfg id rest s'

/-- The slice-insertion loop of UpdateNode on a vFactor increase: a
`sliceAlreadyExists` from insertSlice is escalated to the dedicated
`sliceHashCollision` error and returned at once. -/
def updateInsertLoop (cfg : RingCfg) (id : String) :
    List Int → RingState T → Option Err × RingState T
  | [], s => (none, s)
  | i :: rest, s =>
    let r := insertSlice s (cfg.Hash (cfg.ToSliceName id i)) id
    if r.1 = some Err.sliceAlreadyExists then (some Err.sliceHashCollision, r.2)
    else updateInsertLoop cfg id rest r.2

/-- CreateNode: record the vFactor, then insert every implied virtual
slice, propagating the first error. -/
def CreateNode (cfg : RingCfg) (s : RingState T) (node : NodeV) :
    Option Err × RingState T :=
  if (s.vFactorByNode node.identifier).isSome then (some Err.nodeAlreadyExists, s)
  else
    let s := { s with vFactorByNode := mupd s.vFactorByNode node.identifier node.vFactor }
    insertSlicesFrom cfg node.identifier (idxRange 0 (node.vFactor * cfg.BaseVFactor)) s

/-- DeleteNode: no-op when absent; otherwise remove every slice of the
node, then delete its vFactor. -/
def DeleteNode (cfg : RingCfg) (s : RingState T) (id : String) : RingState T :=
  match s.vFactorByNode id with
  | none => s
  | some vf =>
    let s := (idxRange 0 (vf * cfg.BaseVFactor)).foldl
      (fun t i => removeSlice t (cfg.Hash (cfg.ToSliceName id i))) s
    { s with vFactorByNode := mdel s.vFactorByNode id }

/-- UpdateNode: not-found when absent; no-op on an unchanged vFactor;
insert the newly implied slices on an increase (escalating a collision)
or remove the excess slices on a decrease, then record the vFactor. -/
def UpdateNode (cfg : RingCfg) (s : RingState T) (node : NodeV) :
    Option Err × RingState T :=
  match s.vFactorByNode node.identifier with
  | none => (some Err.nodeNotFound, s)
  | some vf =>
    if node.vFactor = vf then (none, s)
    else if vf < node.vFactor then
      match updateInsertLoop cfg node.identifier
          (idxRange (vf * cfg.BaseVFactor) (node.vFactor * cfg.BaseVFactor)) s with
      | (some e, s') => (some e, s')
      | (none, s') =>
        (none, { s' with vFactorByNode := mupd s'.vFactorByNode node.identifier node.vFactor })
    else
      let s' := (idxRange (node.vFactor * cfg.BaseVFactor) (vf * cfg.BaseVFactor)).foldl
        (fun t i => removeSlice t (cfg.Hash (cfg.ToSliceName node.identifier i))) s
      (none, { s' with vFactorByNode := mupd s'.vFactorByNode node.identifier node.vFactor })

/-- insertHash: insert the hash into the sorted hash sequence unless it
is already present. -/
def insertHash (s : RingState T) (h : Nat) : RingState T :=
  let idx := findIndex s.hashes h
  if s.hashes.getD idx 0 = h ∧ idx < s.hashes.length then s
  else { s with hashes := (insertPreserveOrder s.hashes h findIndex).1 }

/-- removeHash: remove the hash from the sorted hash sequence when
present. -/
def removeHash (s : RingState T) (h : Nat) : RingState T :=
  let idx := findIndex s.hashes h
  if s.hashes.getD idx 0 = h ∧ idx < s.hashes.length then
    { s with hashes := (removeIndex s.hashes (idx : Int)).1 }
  else s

/-- Emplace: add a new unique key, hashing the optional hash key (else
the key itself) onto the ring; the position goes to the unassigned pool
when no slices exist, else to the slice at the circular-previous index
of `findIndex(slices, hash)`. -/
def Emplace (cfg : RingCfg) (s : RingState T) (key : Option (KeyV T))
    (hk : Option String) : Option Err × RingState T :=
  match key with
  | none => (some Err.nilKey, s)
  | some k =>
    if (s.hashesByKey k.innerKey.key).isSome then (some Err.keyAlreadyExists, s)
    else
      let s := { s with contentByKey := mupd s.contentByKey k.innerKey.key k.value }
      let hashKey := match hk with | none => k.innerKey.key | some x => x
      let h := cfg.Hash hashKey
      let s := insertHash s h
      let s :=
        if s.slices.length = 0 then
          let s := { s with empty := emptyInsert s.empty h }
          notify s { key := k.innerKey.key, node := "", payload := k.value,
                     removed := false, updated := false, ringChange := false }
        else
          let slice := s.slices.getD (findPrevIndex s.slices (findIndex s.slices h)) 0
          let s := { s with slicesByHash := mupd s.slicesByHash h slice }
          notify s { key := k.innerKey.key, node := (s.nodesBySlice slice).getD "",
                     payload := k.value, removed := false, updated := false, ringChange := false }
      let s := { s with
        keysByHash := lupd s.keysByHash h (insertPreserveOrder (s.keysByHash h) k.innerKey findKeyIndex).1 }
      (none, { s with hashesByKey := mupd s.hashesByKey k.innerKey.key h })

/-- Update: replace the payload of an existing key in place and notify
with `Updated: true` against its current owner. -/
def Update (s : RingState T) (key : Option (KeyV T)) : Option Err × RingState T :=
  match key with
  | none => (some Err.nilKey, s)
  | some k =>
    if (s.contentByKey k.innerKey.key).isNone then (some Err.keyNotFound, s)
    else
      let s := { s with contentByKey := mupd s.contentByKey k.innerKey.key k.value }
      (none, notify s { key := k.innerKey.key, payload := k.value,
                        node := (s.nodesBySlice ((s.slicesByHash ((s.hashesByKey k.innerKey.key).getD 0)).getD 0)).getD "",
                        removed := false, updated := true, ringChange := false })

/-- Remove: delete a key, its payload and its entry in the key list of
its position; retire the position when this was its last key. -/
def Remove (s : RingState T) (key : String) : RingState T :=
  match s.hashesByKey key with
  | none => s
  | some h =>
    let s := { s with contentByKey := mdel s.contentByKey key }
    let s := { s with
      keysByHash := lupd s.keysByHash h (removeIndex (s.keysByHash h) (findKeyByName (s.keysByHash h) key)).1 }
    let s :=
      if 0 < s.empty.length then
        let s := { s with empty := s.empty.erase h }
        notify s { key := key, node := "", payload := default,
                   removed := true, updated := false, ringChange := false }
      else
        notify s { key := key, node := (s.nodesBySlice ((s.slicesByHash h).getD 0)).getD "",
                   payload := default, removed := true, updated := false, ringChange := false }
    let s :=
      if (s.keysByHash h).length = 0 then
        let s := removeHash s h
        { s with slicesByHash := mdel s.slicesByHash h }
      else s
    { s with hashesByKey := mdel s.hashesByKey key }

/-- The state of a ring freshly returned by `New`. -/
def initState : RingState T :=
  { slices := [], hashes := [], empty := [],
    nodesBySlice := fun _ => none, vFactorByNode := fun _ => none,
    slicesByHash := fun _ => none, keysByHash := fun _ => [],
    contentByKey := fun _ => none, hashesByKey := fun _ => none, ops := [] }

/-- Reachability of a ring state through the public operation surface,
for a fixed injected configuration. Failed operations keep their
returned state, as the source does. -/
inductive Reachable (cfg : RingCfg) : RingState T → Prop where
  | init : Reachable cfg initState
  | createNode {s : RingState T} (n : NodeV) :
      Reachable cfg s → Reachable cfg (CreateNode cfg s n).2
  | deleteNode {s : RingState T} (id : String) :
      Reachable cfg s → Reachable cfg (DeleteNode cfg s id)
  | updateNode {s : RingState T} (n : NodeV) :
      Reachable cfg s → Reachable cfg (UpdateNode cfg s n).2
  | emplace {s : RingState T} (k : Option (KeyV T)) (hk : Option String) :
      Reachable cfg s → Reachable cfg (Emplace cfg s k hk).2
  | update {s : RingState T} (k : Option (KeyV T)) :
      Reachable cfg s → Reachable cfg (Update s k).2
  | remove {s : RingState T} (k : String) :
      Reachable cfg s → Reachable cfg (Remove s k)

/-- The owner of a hash position prescribed by the spec's invariant I3
(the claim's words, for comparison against the code): the largest slice
position less than or equal to the hash position, wrapping circularly to
the largest slice overall when no slice position is below it. -/
def specOwner (slices : List Nat) (h : Nat) : Nat :=
  match (slices.filter fun x => x ≤ h).getLast? with
  | some x => x
  | none => slices.getLastD 0

/-- The circular index walk described by claim C3: from the start index
(inclusive) to the end index (exclusive), wrapping index `len` to `0`
(a spec-side definition). -/
def specWalkIdxs (len start e : Nat) : List Nat :=
  let e' := if e = len then 0 else e
  let s' := if start = len then 0 else start
  if s' ≤ e' then List.range' s' (e' - s')
  else List.range' s' (len - s') ++ List.range' 0 e'

/-- The hash positions a convertHashes call reassigns, according to the
claims: the whole sequence when `circle` holds with `start = end` or the
range spans the full sequence, else the values at the circularly walked
indices (a spec-side definition). -/
def specAffected (hashes : List Nat) (start e : Nat) (circle : Bool) : List Nat :=
  if (circle ∧ start = e) ∨ (start = 0 ∧ e = hashes.length) then hashes
  else (specWalkIdxs hashes.length start e).map fun i => hashes.getD i 0

/-- The notifications convertHash emits for one reassigned position: a
removal per key against the old owner then an addition per key against
the new owner. -/
def reassignOps (s : RingState T) (sl h : Nat) : List (Op T) :=
  keyOps (s.keysByHash h) s.contentByKey ((s.nodesBySlice ((s.slicesByHash h).getD 0)).getD "") true
    ++ keyOps (s.keysByHash h) s.contentByKey ((s.nodesBySlice sl).getD "") false

/-- States s and t agree on every field except possibly the ownership
record and the notification log (the only fields convertHash writes). -/
structure SameCore (s t : RingState T) : Prop where
  slices : t.slices = s.slices
  hashes : t.hashes = s.hashes
  empty : t.empty = s.empty
  nodesBySlice : t.nodesBySlice = s.nodesBySlice
  vFactorByNode : t.vFactorByNode = s.vFactorByNode
  keysByHash : t.keysByHash = s.keysByHash
  contentByKey : t.contentByKey = s.contentByKey
  hashesByKey : t.hashesByKey = s.hashesByKey

/-- The structural invariant of the ring maintained by every public
operation: the slice sequence is strictly sorted, a position has an
owning node exactly when it is in the slice sequence, and the unassigned
pool is empty whenever a slice exists. -/
def InvS (s : RingState T) : Prop :=
  List.Sorted (· < ·) s.slices ∧
  (∀ x : Nat, (s.nodesBySlice x).isSome ↔ x ∈ s.slices) ∧
  (s.slices ≠ [] → s.empty = [])

lemma findIndex_le_length (l : List Nat) (v : Nat) : findIndex l v ≤ l.length := by
  induction l with
  | nil => simp [findIndex]
  | cons a t ih =>
    simp only [findIndex, List.length_cons]
    split
    · omega
    · omega

lemma findIndex_min (l : List Nat) (v : Nat) :
    ∀ i, i < findIndex l v → l.getD i 0 < v := by
  induction l with
  | nil => simp [findIndex]
  | cons a t ih =>
    intro i hi
    simp only [findIndex] at hi
    split at hi
    · omega
    · cases i with
      | zero => simpa using Nat.lt_of_not_le (by assumption)
      | succ j =>
        simp only [List.getD_cons_succ]
        exact ih j (by omega)

lemma findIndex_pred_at (l : List Nat) (v : Nat) (h : findIndex l v < l.length) :
    v ≤ l.getD (findIndex l v) 0 := by
  induction l with
  | nil => simp [findIndex] at h
  | cons a t ih =>
    simp only [findIndex] at h ⊢
    by_cases hva : v ≤ a
    · simp [hva]
    · simp only [hva, if_false, List.getD_cons_succ]
      simp only [hva, if_false, List.length_cons] at h
      exact ih (by omega)

lemma findIndex_mono (l : List Nat) {p q : Nat} (hpq : p ≤ q) :
    findIndex l p ≤ findIndex l q := by
  induction l with
  | nil => simp [findIndex]
  | cons a t ih =>
    simp only [findIndex]
    by_cases hq : q ≤ a
    · have hp : p ≤ a := le_trans hpq hq
      simp [hp, hq]
    · by_cases hp : p ≤ a
      · simp [hp, hq]
      · simp only [hp, hq, if_false]
        omega

lemma sorted_getD_mono {l : List Nat} (hs : List.Sorted (· < ·) l)
    {i j : Nat} (hij : i ≤ j) (hj : j < l.length) : l.getD i 0 ≤ l.getD j 0 := by
  rcases Nat.lt_or_ge i j with h | h
  · have := List.pairwise_iff_getElem.mp hs i j (by omega) hj h
    rw [List.getD_eq_getElem l 0 (by omega : i < l.length), List.getD_eq_getElem l 0 hj]
    exact le_of_lt this
  · have : i = j := by omega
    subst this
    exact le_refl _

lemma getD_mem {l : List Nat} {i : Nat} (hi : i < l.length) : l.getD i 0 ∈ l := by
  rw [List.getD_eq_getElem l 0 hi]
  exact List.getElem_mem hi

lemma mem_iff_getD {l : List Nat} {x : Nat} :
    x ∈ l ↔ ∃ i, i < l.length ∧ l.getD i 0 = x := by
  constructor
  · intro hx
    rcases List.mem_iff_getElem.mp hx with ⟨i, hi, hx'⟩
    exact ⟨i, hi, by rw [List.getD_eq_getElem l 0 hi]; exact hx'⟩
  · rintro ⟨i, hi, rfl⟩
    exact getD_mem hi

lemma findIndex_mem {l : List Nat} {v : Nat} (hs : List.Sorted (· < ·) l) (hv : v ∈ l) :
    findIndex l v < l.length ∧ l.getD (findIndex l v) 0 = v := by
  induction l with
  | nil => simp at hv
  | cons a t ih =>
    simp only [findIndex]
    by_cases hva : v ≤ a
    · have : v = a := by
        rcases List.mem_cons.mp hv with h | h
        · exact h
        · have := (List.pairwise_cons.mp hs).1 v h
          omega
      simp [this]
    · have hv' : v ∈ t := by
        rcases List.mem_cons.mp hv with h | h
        · exact absurd h (by omega)
        · exact h
      have := ih (List.Pairwise.of_cons hs) hv'
      simp only [hva, if_false, List.length_cons, List.getD_cons_succ]
      exact ⟨by omega, this.2⟩

lemma take_findIndex_lt (l : List Nat) (v : Nat) :
    ∀ y ∈ l.take (findIndex l v), y < v := by
  induction l with
  | nil => simp [findIndex]
  | cons a t ih =>
    simp only [findIndex]
    by_cases hva : v ≤ a
    · simp [hva]
    · simp only [hva, if_false, List.take_succ_cons]
      intro y hy
      rcases List.mem_cons.mp hy with rfl | h
      · omega
      · exact ih y h

lemma drop_findIndex_gt {l : List Nat} {v : Nat} (hs : List.Sorted (· < ·) l) (hv : v ∉ l) :
    ∀ y ∈ l.drop (findIndex l v), v < y := by
  induction l with
  | nil => simp [findIndex]
  | cons a t ih =>
    intro y hy
    simp only [findIndex] at hy
    by_cases hva : v ≤ a
    · simp only [hva, if_true, List.drop_zero] at hy
      have hvna : v ≠ a := fun h => hv (h ▸ List.mem_cons_self a t)
      rcases List.mem_cons.mp hy with rfl | h
      · omega
      · have := (List.pairwise_cons.mp hs).1 y h
        omega
    · simp only [hva, if_false, List.drop_succ_cons] at hy
      exact ih (List.Pairwise.of_cons hs) (fun h => hv (List.mem_cons_of_mem a h)) y hy

lemma drop_head_le {l : List Nat} (hs : List.Sorted (· < ·) l) {idx : Nat}
    (hidx : idx < l.length) : ∀ y ∈ l.drop idx, l.getD idx 0 ≤ y := by
  intro y hy
  rw [List.drop_eq_getElem_cons hidx] at hy
  rw [List.getD_eq_getElem l 0 hidx]
  rcases List.mem_cons.mp hy with rfl | h
  · exact le_refl _
  · have hsdrop : List.Sorted (· < ·) (l[idx] :: l.drop (idx + 1)) := by
      rw [← List.drop_eq_getElem_cons hidx]
      exact hs.sublist (l.drop_sublist idx)
    exact le_of_lt ((List.pairwise_cons.mp hsdrop).1 y h)

/-- A configuration whose injected hash function puts node A's single
slice at 10, node B's at 20, and key k also at 20 (a hash position equal
to a slice position). -/
def cfgBoundary : RingCfg :=
  { Hash := fun x => if x = "A" then 10 else if x = "B" then 20 else if x = "k" then 20 else 0,
    BaseVFactor := 1,
    ToSliceName := fun s _ => s }

/-- The ring with nodes A and B created under `cfgBoundary`. -/
def stAB : RingState Nat :=
  (CreateNode cfgBoundary ((CreateNode cfgBoundary initState ⟨"A", 1⟩).2) ⟨"B", 1⟩).2

/-- `stAB` after emplacing key k, whose hash position 20 equals slice
position 20. -/
def stABk : RingState Nat :=
  (Emplace cfgBoundary stAB (some ⟨⟨"k", 0⟩, 0⟩) none).2

/-- C1: for every reachable ring state with slices, every tracked hash
position is owned by the largest slice position ≤ it under circular
wraparound, including a hash position exactly equal to a slice position.
The code violates this at the stated boundary: in the reachable state
with slices 10 and 20, emplacing a key at hash position 20 records owner
10 (the circular-previous slice under a strict comparison), while the
largest slice ≤ 20 is 20 itself — the convention the reassignment
algorithm and the repository's own edge-case tests use. -/
theorem c1_ownership_boundary :
    Reachable cfgBoundary stABk ∧
    stABk.slices = [10, 20] ∧ 20 ∈ stABk.hashes ∧
    stABk.slicesByHash 20 = some 10 ∧
    specOwner stABk.slices 20 = 20 := by
  refine ⟨?_, by decide, by decide, by decide, by decide⟩
  exact Reachable.emplace _ _ (Reachable.createNode _ (Reachable.createNode _ Reachable.init))

/-- A configuration hashing key k to position 5. -/
def cfgPool : RingCfg :=
  { Hash := fun x => if x = "k" then 5 else 0, BaseVFactor := 1, ToSliceName := fun s _ => s }

/-- A zero-slice ring holding key k at position 5 in the unassigned
pool. -/
def stPool : RingState Nat :=
  (Emplace cfgPool initState (some ⟨⟨"k", 0⟩, 0⟩) none).2

/-- C2 counterexample: in the reachable zero-slice state `stPool` (whose
ownership record is empty and whose pool holds position 5), inserting
slice 3 — a position not currently present — and immediately removing it
leaves position 5 mapped to the departed slice 3, so the ownership
record is not restored. -/
theorem c2_round_trip_counterexample :
    stPool.nodesBySlice 3 = none ∧ 3 ∉ stPool.slices ∧
    stPool.slicesByHash 5 = none ∧
    (removeSlice ((insertSlice stPool 3 "A").2) 3).slicesByHash 5 = some 3 := by
  refine ⟨by decide, by decide, by decide, by decide⟩

/-- A configuration hashing keys a and b to positions 5 and 3, and node
N's single slice to 7. -/
def cfgPoolTwo : RingCfg :=
  { Hash := fun x => if x = "a" then 5 else if x = "b" then 3 else if x = "N" then 7 else 0,
    BaseVFactor := 1,
    ToSliceName := fun s _ => s }

/-- A zero-slice ring whose pool holds positions 5 then 3, in that
insertion order (key a was emplaced before key b). -/
def stPoolTwo : RingState Nat :=
  (Emplace cfgPoolTwo ((Emplace cfgPoolTwo initState (some ⟨⟨"a", 0⟩, 0⟩) none).2)
    (some ⟨⟨"b", 0⟩, 0⟩) none).2

/-- `stPoolTwo` after node N's first slice is created. -/
def stPoolDrained : RingState Nat :=
  (CreateNode cfgPoolTwo stPoolTwo ⟨"N", 1⟩).2

/-- C4 counterexample: inserting the first slice into `stPoolTwo` moves
the pool positions in pool-iteration order 5 then 3 — witnessed by the
order of the emitted notifications — not in ascending hash-position
order, refuting the claim's ordering clause (the source iterates a Go
map, whose order is unspecified; this model fixes insertion order). -/
theorem c4_pool_order_counterexample :
    stPoolTwo.empty = [5, 3] ∧
    (stPoolDrained.ops.drop stPoolTwo.ops.length).map
        (fun o => (stPoolDrained.hashesByKey o.key).getD 0) = [5, 3] ∧
    ¬ List.Sorted (· ≤ ·)
        ((stPoolDrained.ops.drop stPoolTwo.ops.length).map
          (fun o => (stPoolDrained.hashesByKey o.key).getD 0)) ∧
    (stPoolDrained.ops.drop stPoolTwo.ops.length).all
        (fun o => o.ringChange && !o.removed) = true := by
  refine ⟨by decide, by decide, by decide, by decide⟩

/-- A configuration with node A's slice at 10, node B's slice at 15 and
the shared hash token t at position 20. -/
def cfgCollide : RingCfg :=
  { Hash := fun x => if x = "A" then 10 else if x = "B" then 15 else if x = "t" then 20 else 0,
    BaseVFactor := 1,
    ToSliceName := fun s _ => s }

/-- A ring with node A's slice at 10 and two keys x and y sharing hash
position 20 (emplaced with the same hash token t). -/
def stTwoKeys : RingState Nat :=
  (Emplace cfgCollide
    ((Emplace cfgCollide ((CreateNode cfgCollide initState ⟨"A", 1⟩).2)
      (some ⟨⟨"x", 0⟩, 0⟩) (some "t")).2)
    (some ⟨⟨"y", 1⟩, 0⟩) (some "t")).2

/-- `stTwoKeys` after node B is created, whose slice at 15 takes over
position 20. -/
def stTwoKeysB : RingState Nat :=
  (CreateNode cfgCollide stTwoKeys ⟨"B", 1⟩).2

/-- C5 counterexample: creating node B in `stTwoKeys` reassigns exactly
one hash position (20, the only tracked position, from owner 10 to owner
15), yet emits two removal and two addition notifications — one pair per
key stored at the position — refuting "exactly K removal notifications
and exactly K addition notifications" for K reassigned positions. -/
theorem c5_per_key_counterexample :
    stTwoKeys.hashes = [20] ∧
    stTwoKeys.slicesByHash 20 = some 10 ∧
    stTwoKeysB.slicesByHash 20 = some 15 ∧
    ((stTwoKeysB.ops.drop stTwoKeys.ops.length).filter (fun o => o.removed)).length = 2 ∧
    ((stTwoKeysB.ops.drop stTwoKeys.ops.length).filter (fun o => !o.removed)).length = 2 := by
  refine ⟨by decide, by decide, by decide, by decide, by decide⟩

/-- C7 counterexample: on the empty sequence, `removeIndex` with index 0
returns no error, although 0 is out of bounds there (`0 ≥ length`), so
"fails if and only if the index is invalid, including when the sequence
is empty" does not hold. -/
theorem c7_empty_counterexample :
    (removeIndex ([] : List Nat) 0).2 = none ∧
    ¬ ((0 : Int) < (([] : List Nat).length : Int)) := by
  refine ⟨by decide, by decide⟩

/-- C7 as amended: on a non-empty sequence, `removeIndex` fails with the
out-of-bounds error exactly when the index is invalid (negative or at
least the length), and on failure it returns the sequence unchanged; the
empty sequence instead returns `(nil, nil)` with no error. -/
theorem c7_remove_at_bounds {α : Type} (arr : List α) (i : Int) (hne : arr ≠ []) :
    ((removeIndex arr i).2 = some Err.outOfBounds ↔ (i < 0 ∨ (arr.length : Int) ≤ i)) ∧
    ((i < 0 ∨ (arr.length : Int) ≤ i) → (removeIndex arr i).1 = arr) := by
  have hlen : arr.length ≠ 0 := fun h => hne (List.length_eq_zero.mp h)
  unfold removeIndex
  simp only [hlen, if_false]
  by_cases hb : i < 0 ∨ (arr.length : Int) ≤ i
  · simp [hb]
  · simp [hb]

/-- Witness for `c7_remove_at_bounds` at the sequence `[0]` and index
10. -/
theorem c7_remove_at_bounds_witness :
    ([0] : List Nat) ≠ [] ∧
    (((removeIndex ([0] : List Nat) 10).2 = some Err.outOfBounds ↔
        ((10 : Int) < 0 ∨ ((([0] : List Nat).length : Nat) : Int) ≤ 10)) ∧
      (((10 : Int) < 0 ∨ ((([0] : List Nat).length : Nat) : Int) ≤ 10) →
        (removeIndex ([0] : List Nat) 10).1 = [0])) :=
  ⟨by decide, c7_remove_at_bounds [0] 10 (by decide)⟩

lemma sameCore_rfl {s : RingState T} : SameCore s s :=
  ⟨rfl, rfl, rfl, rfl, rfl, rfl, rfl, rfl⟩

lemma SameCore.comp {s t u : RingState T} (h1 : SameCore s t) (h2 : SameCore t u) :
    SameCore s u :=
  ⟨h2.slices.trans h1.slices, h2.hashes.trans h1.hashes, h2.empty.trans h1.empty,
   h2.nodesBySlice.trans h1.nodesBySlice, h2.vFactorByNode.trans h1.vFactorByNode,
   h2.keysByHash.trans h1.keysByHash, h2.contentByKey.trans h1.contentByKey,
   h2.hashesByKey.trans h1.hashesByKey⟩

lemma convertHash_core (s : RingState T) (sl h : Nat) : SameCore s (convertHash s sl h) :=
  ⟨rfl, rfl, rfl, rfl, rfl, rfl, rfl, rfl⟩

lemma convertHash_slicesByHash (s : RingState T) (sl h : Nat) :
    (convertHash s sl h).slicesByHash = mupd s.slicesByHash h sl := rfl

lemma convertHash_ops (s : RingState T) (sl h : Nat) :
    (convertHash s sl h).ops = s.ops ++ reassignOps s sl h := by
  simp [convertHash, reassignOps, List.append_assoc]

lemma foldl_convertHash_core (sl : Nat) :
    ∀ (L : List Nat) (s : RingState T), SameCore s (L.foldl (fun t h => convertHash t sl h) s)
  | [], _ => sameCore_rfl
  | h :: r, s =>
    SameCore.comp (convertHash_core s sl h) (foldl_convertHash_core sl r (convertHash s sl h))

lemma convertLoop_core (sl e : Nat) :
    ∀ (fuel : Nat) (s : RingState T) (start : Nat), SameCore s (convertLoop sl e fuel s start) := by
  intro fuel
  induction fuel with
  | zero => intro s start; exact sameCore_rfl
  | succ n ih =>
    intro s start
    show SameCore s
      (if (if start = s.hashes.length then 0 else start) = e then s
       else convertLoop sl e n
         (convertHash s sl (s.hashes.getD (if start = s.hashes.length then 0 else start) 0))
         ((if start = s.hashes.length then 0 else start) + 1))
    by_cases hc : (if start = s.hashes.length then 0 else start) = e
    · simp only [hc, if_true]
      exact sameCore_rfl
    · simp only [hc, if_false]
      exact SameCore.comp (convertHash_core s sl _) (ih _ _)

lemma convertHashes_core (s : RingState T) (sl a b : Nat) (c : Bool) :
    SameCore s (convertHashes s sl a b c) := by
  unfold convertHashes
  split
  · exact foldl_convertHash_core sl s.hashes s
  · exact convertLoop_core sl _ _ s a

lemma foldl_pres {σ β : Type} (P : σ → Prop) (f : σ → β → σ)
    (hf : ∀ t x, P t → P (f t x)) : ∀ (l : List β) (s : σ), P s → P (l.foldl f s)
  | [], _, hs => hs
  | x :: r, s, hs => foldl_pres P f hf r (f s x) (hf s x hs)

lemma drainStep_fold (p : Nat) :
    ∀ (l : List Nat) (t : RingState T), t.empty = l →
      (l.foldl (drainStep p) t).empty = [] ∧
      (l.foldl (drainStep p) t).slices = t.slices ∧
      (l.foldl (drainStep p) t).hashes = t.hashes ∧
      (l.foldl (drainStep p) t).nodesBySlice = t.nodesBySlice ∧
      (l.foldl (drainStep p) t).vFactorByNode = t.vFactorByNode ∧
      (l.foldl (drainStep p) t).keysByHash = t.keysByHash ∧
      (l.foldl (drainStep p) t).contentByKey = t.contentByKey ∧
      (l.foldl (drainStep p) t).hashesByKey = t.hashesByKey ∧
      (∀ x, (l.foldl (drainStep p) t).slicesByHash x =
        if x ∈ l then some p else t.slicesByHash x) ∧
      (l.foldl (drainStep p) t).ops = t.ops ++
        (l.map fun h =>
          keyOps (t.keysByHash h) t.contentByKey ((t.nodesBySlice p).getD "") false).flatten := by
  intro l
  induction l with
  | nil =>
    intro t ht
    refine ⟨ht, rfl, rfl, rfl, rfl, rfl, rfl, rfl, ?_, by simp⟩
    intro x
    simp
  | cons h r ih =>
    intro t ht
    have hstep : (drainStep p t h).empty = r := by
      simp only [drainStep]
      rw [ht]
      exact List.erase_cons_head h r
    obtain ⟨e1, e2, e3, e4, e5, e6, e7, e8, e9, e10⟩ := ih (drainStep p t h) hstep
    have hfold : (h :: r).foldl (drainStep p) t = r.foldl (drainStep p) (drainStep p t h) := rfl
    rw [hfold]
    refine ⟨e1, e2, e3, e4, e5, e6, e7, e8, ?_, ?_⟩
    · intro x
      rw [e9 x]
      by_cases hxr : x ∈ r
      · simp [hxr]
      · by_cases hxh : x = h
        · subst hxh
          simp [hxr, drainStep, mupd]
        · simp [hxr, hxh, drainStep, mupd]
    · rw [e10]
      simp only [drainStep, List.map_cons, List.flatten_cons]
      simp [List.append_assoc]

lemma poolStep_fields (p : Nat) (l : List Nat) (t : RingState T) :
    (l.foldl (poolStep p) t).slices = t.slices ∧
    (l.foldl (poolStep p) t).nodesBySlice = t.nodesBySlice := by
  refine foldl_pres (fun u => u.slices = t.slices ∧ u.nodesBySlice = t.nodesBySlice)
    (poolStep p) ?_ l t ⟨rfl, rfl⟩
  intro u x hu
  exact ⟨hu.1, hu.2⟩

lemma mupd_self {α β : Type} [DecidableEq α] (m : α → Option β) (k : α) (v : β) :
    mupd m k v k = some v := by simp [mupd]

lemma mupd_ne {α β : Type} [DecidableEq α] (m : α → Option β) (k : α) (v : β)
    {x : α} (hx : x ≠ k) : mupd m k v x = m x := by simp [mupd, hx]

lemma mem_insertPO {l : List Nat} {v x : Nat} {n : Nat} :
    x ∈ l.take n ++ v :: l.drop n ↔ x = v ∨ x ∈ l := by
  constructor
  · intro hx
    rcases List.mem_append.mp hx with h | h
    · exact Or.inr (List.mem_of_mem_take h)
    · rcases List.mem_cons.mp h with h | h
      · exact Or.inl h
      · exact Or.inr (List.mem_of_mem_drop h)
  · intro hx
    rcases hx with rfl | hx
    · exact List.mem_append.mpr (Or.inr (List.mem_cons_self _ _))
    · rcases List.mem_append.mp ((List.take_append_drop n l).symm ▸ hx) with h | h
      · exact List.mem_append.mpr (Or.inl h)
      · exact List.mem_append.mpr (Or.inr (List.mem_cons_of_mem _ h))

lemma length_insertPO {l : List Nat} {v : Nat} {n : Nat} (hn : n ≤ l.length) :
    (l.take n ++ v :: l.drop n).length = l.length + 1 := by
  simp [List.length_take, List.length_drop]
  omega

lemma sorted_insertPO {l : List Nat} {v : Nat} (hs : List.Sorted (· < ·) l) (hv : v ∉ l) :
    List.Sorted (· < ·) (l.take (findIndex l v) ++ v :: l.drop (findIndex l v)) := by
  have hcross : ∀ a ∈ l.take (findIndex l v), ∀ b ∈ l.drop (findIndex l v), a < b := by
    have := (List.pairwise_append.mp ((List.take_append_drop (findIndex l v) l).symm ▸ hs)).2.2
    exact this
  refine List.pairwise_append.mpr ⟨?_, ?_, ?_⟩
  · exact hs.sublist (l.take_sublist _)
  · refine List.pairwise_cons.mpr ⟨?_, hs.sublist (l.drop_sublist _)⟩
    exact drop_findIndex_gt hs hv
  · intro a ha b hb
    rcases List.mem_cons.mp hb with rfl | hb
    · exact take_findIndex_lt l b a ha
    · exact hcross a ha b hb

lemma decomp_at {l : List Nat} {idx : Nat} (hi : idx < l.length) :
    l = l.take idx ++ l.getD idx 0 :: l.drop (idx + 1) := by
  rw [List.getD_eq_getElem l 0 hi, ← List.drop_eq_getElem_cons hi, List.take_append_drop]

lemma removeIndex_nat {α : Type} {l : List α} {idx : Nat} (hi : idx < l.length) :
    (removeIndex l (idx : Int)).1 = l.take idx ++ l.drop (idx + 1) := by
  unfold removeIndex
  have h0 : ¬ (l.length = 0) := by omega
  have hb : ¬ ((idx : Int) < 0 ∨ (l.length : Int) ≤ (idx : Int)) := by
    push_neg
    refine ⟨by omega, ?_⟩
    exact_mod_cast hi
  rw [if_neg h0, if_neg hb]
  simp

lemma sorted_remove {l : List Nat} {idx : Nat} (hs : List.Sorted (· < ·) l)
    (hi : idx < l.length) :
    List.Sorted (· < ·) (l.take idx ++ l.drop (idx + 1)) := by
  have hsub : (l.take idx ++ l.drop (idx + 1)).Sublist l := by
    conv_rhs => rw [decomp_at hi]
    exact List.Sublist.append_left (List.sublist_cons_self _ _) _
  exact hs.sublist hsub

lemma mem_remove {l : List Nat} {idx : Nat} (hs : List.Sorted (· < ·) l)
    (hi : idx < l.length) {x : Nat} :
    x ∈ l.take idx ++ l.drop (idx + 1) ↔ x ∈ l ∧ x ≠ l.getD idx 0 := by
  have hdec := decomp_at hi
  have hpw : List.Pairwise (· < ·) (l.take idx ++ l.getD idx 0 :: l.drop (idx + 1)) :=
    hdec ▸ hs
  have hparts := List.pairwise_append.mp hpw
  have htake : ∀ a ∈ l.take idx, a < l.getD idx 0 :=
    fun a ha => hparts.2.2 a ha _ (List.mem_cons_self _ _)
  have hdrop : ∀ a ∈ l.drop (idx + 1), l.getD idx 0 < a :=
    fun a ha => (List.pairwise_cons.mp hparts.2.1).1 a ha
  constructor
  · intro hx
    rcases List.mem_append.mp hx with h | h
    · refine ⟨by rw [hdec]; exact List.mem_append.mpr (Or.inl h), ?_⟩
      have := htake x h
      omega
    · refine ⟨by rw [hdec]; exact List.mem_append.mpr (Or.inr (List.mem_cons_of_mem _ h)), ?_⟩
      have := hdrop x h
      omega
  · rintro ⟨hx, hne⟩
    rw [hdec] at hx
    rcases List.mem_append.mp hx with h | h
    · exact List.mem_append.mpr (Or.inl h)
    · rcases List.mem_cons.mp h with h | h
      · exact absurd h hne
      · exact List.mem_append.mpr (Or.inr h)

lemma length_remove {l : List Nat} {idx : Nat} (hi : idx < l.length) :
    (l.take idx ++ l.drop (idx + 1)).length = l.length - 1 := by
  simp [List.length_take, List.length_drop]
  omega

lemma not_mem_of_not_isSome {s : RingState T} (hinv : InvS s) {p : Nat}
    (h : ¬ (s.nodesBySlice p).isSome) : p ∉ s.slices :=
  fun hm => h ((hinv.2.1 p).mpr hm)

lemma inv_insertSlice (s : RingState T) (p : Nat) (node : String) (hinv : InvS s) :
    InvS (insertSlice s p node).2 := by
  by_cases hsome : (s.nodesBySlice p).isSome
  · simp only [insertSlice, hsome, if_true]
    exact hinv
  · have hp : p ∉ s.slices := not_mem_of_not_isSome hinv hsome
    have hb : (s.nodesBySlice p).isSome = false := by simpa using hsome
    have hsorted' : List.Sorted (· < ·)
        (s.slices.take (findIndex s.slices p) ++ p :: s.slices.drop (findIndex s.slices p)) :=
      sorted_insertPO hinv.1 hp
    have hdom' : ∀ x : Nat, (mupd s.nodesBySlice p node x).isSome ↔
        x ∈ s.slices.take (findIndex s.slices p) ++ p :: s.slices.drop (findIndex s.slices p) := by
      intro x
      by_cases hxp : x = p
      · subst hxp
        simp [mupd_self, mem_insertPO]
      · rw [mupd_ne _ _ _ hxp, mem_insertPO]
        simp [hxp, hinv.2.1 x]
    set s1 : RingState T :=
      { s with
        slices := s.slices.take (findIndex s.slices p) ++ p :: s.slices.drop (findIndex s.slices p),
        nodesBySlice := mupd s.nodesBySlice p node } with hs1
    simp only [insertSlice, hb, Bool.false_eq_true, if_false, insertPreserveOrder]
    split
    · rename_i hlen
      have h1 : InvS (List.foldl (drainStep p) s1 s1.empty) := by
        obtain ⟨d1, d2, d3, d4, d5, d6, d7, d8, d9, d10⟩ := drainStep_fold p s1.empty s1 rfl
        refine ⟨?_, ?_, fun _ => d1⟩
        · rw [d2]
          exact hsorted'
        · intro x
          rw [d4, d2]
          exact hdom' x
      exact h1
    · rename_i hlen
      have h2 : ∀ a b c, InvS (convertHashes s1 p a b c) := by
        intro a b c
        have hcore := convertHashes_core s1 p a b c
        refine ⟨?_, ?_, ?_⟩
        · rw [hcore.slices]
          exact hsorted'
        · intro x
          rw [hcore.nodesBySlice, hcore.slices]
          exact hdom' x
        · intro _
          rw [hcore.empty]
          show s.empty = []
          apply hinv.2.2
          intro hnil
          apply hlen
          rw [hnil]
          simp [findIndex]
      exact h2 _ _ _

lemma mdel_self {α β : Type} [DecidableEq α] (m : α → Option β) (k : α) :
    mdel m k k = none := by simp [mdel]

lemma mdel_ne {α β : Type} [DecidableEq α] (m : α → Option β) (k : α)
    {x : α} (hx : x ≠ k) : mdel m k x = m x := by simp [mdel, hx]

lemma inv_removeSlice (s : RingState T) (p : Nat) (hinv : InvS s) :
    InvS (removeSlice s p) := by
  by_cases hnone : (s.nodesBySlice p).isNone
  · simp only [removeSlice, hnone, if_true]
    exact hinv
  · have hsome : (s.nodesBySlice p).isSome := by
      cases h : s.nodesBySlice p
      · rw [h] at hnone
        simp at hnone
      · simp [h]
    have hmem : p ∈ s.slices := (hinv.2.1 p).mp hsome
    obtain ⟨hlt, hget⟩ := findIndex_mem hinv.1 hmem
    have hb : (s.nodesBySlice p).isNone = false := by
      simp [Option.isNone_eq_false_iff]
      exact hsome
    have hfin : ∀ (s' : RingState T), s'.slices = s.slices →
        s'.nodesBySlice = s.nodesBySlice →
        (s.slices.length ≠ 1 → s'.empty = s.empty) →
        InvS { s' with
          slices := (removeIndex s'.slices ((findIndex s.slices p : Nat) : Int)).1,
          nodesBySlice := mdel s'.nodesBySlice p } := by
      intro s' hsl hnb hemp
      have hrem : (removeIndex s'.slices ((findIndex s.slices p : Nat) : Int)).1 =
          s.slices.take (findIndex s.slices p) ++ s.slices.drop (findIndex s.slices p + 1) := by
        rw [hsl]
        exact removeIndex_nat hlt
      refine ⟨?_, ?_, ?_⟩
      · show List.Sorted (· < ·) (removeIndex s'.slices _).1
        rw [hrem]
        exact sorted_remove hinv.1 hlt
      · intro x
        show (mdel s'.nodesBySlice p x).isSome ↔ x ∈ (removeIndex s'.slices _).1
        rw [hrem, hnb, mem_remove hinv.1 hlt, hget]
        by_cases hxp : x = p
        · subst hxp
          simp [mdel_self]
        · rw [mdel_ne _ _ hxp]
          simp [hxp, hinv.2.1 x]
      · intro hne
        show s'.empty = []
        have hlen1 : s.slices.length ≠ 1 := by
          intro h1
          apply hne
          show (removeIndex s'.slices _).1 = []
          rw [hrem]
          have := @length_remove s.slices (findIndex s.slices p) hlt
          rw [← List.length_eq_zero]
          omega
        rw [hemp hlen1]
        apply hinv.2.2
        exact List.ne_nil_of_mem hmem
    simp only [removeSlice, hb, Bool.false_eq_true, if_false]
    split
    · rename_i hlen
      obtain ⟨q1, q2⟩ := poolStep_fields p s.hashes s
      exact hfin _ q1 q2 (fun h => absurd hlen h)
    · rename_i hlen
      have hc := convertHashes_core s
        (s.slices.getD (findPrevIndex s.slices (findIndex s.slices p)) 0)
        (findIndex s.hashes p)
        (findIndex s.hashes (s.slices.getD (findNextIndex s.slices (findIndex s.slices p)) 0))
        (decide (s.slices.getD (findNextIndex s.slices (findIndex s.slices p)) 0 < p))
      exact hfin _ hc.slices hc.nodesBySlice (fun _ => hc.empty)

lemma insertHash_slices (s : RingState T) (h : Nat) : (insertHash s h).slices = s.slices := by
  simp only [insertHash]
  split <;> rfl

lemma insertHash_nodesBySlice (s : RingState T) (h : Nat) : (insertHash s h).nodesBySlice = s.nodesBySlice := by
  simp only [insertHash]
  split <;> rfl

lemma insertHash_empty (s : RingState T) (h : Nat) : (insertHash s h).empty = s.empty := by
  simp only [insertHash]
  split <;> rfl

lemma removeHash_slices (s : RingState T) (h : Nat) : (removeHash s h).slices = s.slices := by
  simp only [removeHash]
  split <;> rfl

lemma removeHash_nodesBySlice (s : RingState T) (h : Nat) : (removeHash s h).nodesBySlice = s.nodesBySlice := by
  simp only [removeHash]
  split <;> rfl

lemma removeHash_empty (s : RingState T) (h : Nat) : (removeHash s h).empty = s.empty := by
  simp only [removeHash]
  split <;> rfl

lemma Emplace_slices (cfg : RingCfg) (s : RingState T) (k : Option (KeyV T)) (hk : Option String) :
    ((Emplace cfg s k hk).2).slices = s.slices := by
  match k with
  | none => rfl
  | some kk =>
    by_cases hex : (s.hashesByKey kk.innerKey.key).isSome
    · simp [Emplace, hex]
    · have hb : (s.hashesByKey kk.innerKey.key).isSome = false := by simpa using hex
      simp only [Emplace, hb, Bool.false_eq_true, if_false]
      split
      · simp [notify, insertHash_slices]
      · simp [notify, insertHash_slices]

lemma Emplace_nodesBySlice (cfg : RingCfg) (s : RingState T) (k : Option (KeyV T)) (hk : Option String) :
    ((Emplace cfg s k hk).2).nodesBySlice = s.nodesBySlice := by
  match k with
  | none => rfl
  | some kk =>
    by_cases hex : (s.hashesByKey kk.innerKey.key).isSome
    · simp [Emplace, hex]
    · have hb : (s.hashesByKey kk.innerKey.key).isSome = false := by simpa using hex
      simp only [Emplace, hb, Bool.false_eq_true, if_false]
      split
      · simp [notify, insertHash_nodesBySlice]
      · simp [notify, insertHash_nodesBySlice]

lemma Emplace_empty_of_slices (cfg : RingCfg) (s : RingState T) (k : Option (KeyV T))
    (hk : Option String) (hne : s.slices ≠ []) :
    ((Emplace cfg s k hk).2).empty = s.empty := by
  match k with
  | none => rfl
  | some kk =>
    by_cases hex : (s.hashesByKey kk.innerKey.key).isSome
    · simp [Emplace, hex]
    · have hb : (s.hashesByKey kk.innerKey.key).isSome = false := by simpa using hex
      simp only [Emplace, hb, Bool.false_eq_true, if_false]
      split
      · rename_i hz
        rw [insertHash_slices] at hz
        exact absurd (List.length_eq_zero.mp hz) hne
      · simp [notify, insertHash_empty]

lemma Remove_slices (s : RingState T) (key : String) : (Remove s key).slices = s.slices := by
  cases hcase : s.hashesByKey key with
  | none => simp [Remove, hcase]
  | some h =>
    simp only [Remove, hcase]
    split
    · split
      · simp [notify, removeHash_slices]
      · simp [notify, removeHash_slices]
    · split
      · simp [notify, removeHash_slices]
      · simp [notify, removeHash_slices]

lemma Remove_nodesBySlice (s : RingState T) (key : String) :
    (Remove s key).nodesBySlice = s.nodesBySlice := by
  cases hcase : s.hashesByKey key with
  | none => simp [Remove, hcase]
  | some h =>
    simp only [Remove, hcase]
    split
    · split
      · simp [notify, removeHash_nodesBySlice]
      · simp [notify, removeHash_nodesBySlice]
    · split
      · simp [notify, removeHash_nodesBySlice]
      · simp [notify, removeHash_nodesBySlice]

lemma Remove_empty_nil (s : RingState T) (key : String) (hemp : s.empty = []) :
    (Remove s key).empty = [] := by
  cases hcase : s.hashesByKey key with
  | none => simp [Remove, hcase, hemp]
  | some h =>
    simp only [Remove, hcase]
    split
    · rename_i hlen
      simp only [hemp] at hlen
      simp at hlen
    · split
      · simp [notify, removeHash_empty, hemp]
      · simp [notify, removeHash_empty, hemp]

lemma Update_fields (s : RingState T) (k : Option (KeyV T)) :
    ((Update s k).2).slices = s.slices ∧ ((Update s k).2).nodesBySlice = s.nodesBySlice ∧
      ((Update s k).2).empty = s.empty := by
  match k with
  | none => exact ⟨rfl, rfl, rfl⟩
  | some kk =>
    by_cases hc : (s.contentByKey kk.innerKey.key).isNone
    · simp [Update, hc]
    · have hb : (s.contentByKey kk.innerKey.key).isNone = false := by
        simp only [Option.isNone_eq_false_iff]
        simp only [Option.isNone_iff_eq_none] at hc
        exact Option.isSome_iff_ne_none.mpr hc
      simp [Update, hb, notify]

lemma inv_Emplace (cfg : RingCfg) (s : RingState T) (k : Option (KeyV T)) (hk : Option String)
    (hinv : InvS s) : InvS (Emplace cfg s k hk).2 := by
  refine ⟨?_, ?_, ?_⟩
  · rw [Emplace_slices]
    exact hinv.1
  · intro x
    rw [Emplace_nodesBySlice, Emplace_slices]
    exact hinv.2.1 x
  · intro hne
    rw [Emplace_slices] at hne
    rw [Emplace_empty_of_slices cfg s k hk hne]
    exact hinv.2.2 hne

lemma inv_Remove (s : RingState T) (key : String) (hinv : InvS s) : InvS (Remove s key) := by
  refine ⟨?_, ?_, ?_⟩
  · rw [Remove_slices]
    exact hinv.1
  · intro x
    rw [Remove_nodesBySlice, Remove_slices]
    exact hinv.2.1 x
  · intro hne
    rw [Remove_slices] at hne
    exact Remove_empty_nil s key (hinv.2.2 hne)

lemma inv_Update (s : RingState T) (k : Option (KeyV T)) (hinv : InvS s) :
    InvS (Update s k).2 := by
  obtain ⟨f1, f2, f3⟩ := Update_fields s k
  refine ⟨?_, ?_, ?_⟩
  · rw [f1]
    exact hinv.1
  · intro x
    rw [f2, f1]
    exact hinv.2.1 x
  · intro hne
    rw [f1] at hne
    rw [f3]
    exact hinv.2.2 hne

lemma inv_insertSlicesFrom (cfg : RingCfg) (id : String) :
    ∀ (L : List Int) (s : RingState T), InvS s → InvS (insertSlicesFrom cfg id L s).2 := by
  intro L
  induction L with
  | nil => intro s h; exact h
  | cons i rest ih =>
    intro s h
    have hins := inv_insertSlice s (cfg.Hash (cfg.ToSliceName id i)) id h
    simp only [insertSlicesFrom]
    rcases hmk : insertSlice s (cfg.Hash (cfg.ToSliceName id i)) id with ⟨e, s2⟩
    rw [hmk] at hins
    cases e with
    | some err => exact hins
    | none => exact ih s2 hins

lemma inv_updateInsertLoop (cfg : RingCfg) (id : String) :
    ∀ (L : List Int) (s : RingState T), InvS s → InvS (updateInsertLoop cfg id L s).2 := by
  intro L
  induction L with
  | nil => intro s h; exact h
  | cons i rest ih =>
    intro s h
    have hins := inv_insertSlice s (cfg.Hash (cfg.ToSliceName id i)) id h
    simp only [updateInsertLoop]
    split
    · exact hins
    · exact ih _ hins

lemma inv_CreateNode (cfg : RingCfg) (s : RingState T) (n : NodeV) (hinv : InvS s) :
    InvS (CreateNode cfg s n).2 := by
  by_cases hc : (s.vFactorByNode n.identifier).isSome
  · simp only [CreateNode, hc, if_true]
    exact hinv
  · have hb : (s.vFactorByNode n.identifier).isSome = false := by simpa using hc
    simp only [CreateNode, hb, Bool.false_eq_true, if_false]
    exact inv_insertSlicesFrom cfg n.identifier _ _ ⟨hinv.1, hinv.2.1, hinv.2.2⟩

lemma inv_DeleteNode (cfg : RingCfg) (s : RingState T) (id : String) (hinv : InvS s) :
    InvS (DeleteNode cfg s id) := by
  cases hvf : s.vFactorByNode id with
  | none => simp only [DeleteNode, hvf]; exact hinv
  | some vf =>
    simp only [DeleteNode, hvf]
    have hfold : InvS ((idxRange 0 (vf * cfg.BaseVFactor)).foldl
        (fun t i => removeSlice t (cfg.Hash (cfg.ToSliceName id i))) s) :=
      foldl_pres InvS _ (fun t i ht => inv_removeSlice t _ ht) _ s hinv
    exact ⟨hfold.1, hfold.2.1, hfold.2.2⟩

lemma inv_UpdateNode (cfg : RingCfg) (s : RingState T) (n : NodeV) (hinv : InvS s) :
    InvS (UpdateNode cfg s n).2 := by
  cases hvf : s.vFactorByNode n.identifier with
  | none => simp only [UpdateNode, hvf]; exact hinv
  | some vf =>
    simp only [UpdateNode, hvf]
    by_cases heq : n.vFactor = vf
    · simp only [heq, if_true]
      exact hinv
    · simp only [heq, if_false]
      by_cases hgt : vf < n.vFactor
      · simp only [hgt, if_true]
        have hloop := inv_updateInsertLoop cfg n.identifier
          (idxRange (vf * cfg.BaseVFactor) (n.vFactor * cfg.BaseVFactor)) s hinv
        rcases hmk : updateInsertLoop cfg n.identifier
          (idxRange (vf * cfg.BaseVFactor) (n.vFactor * cfg.BaseVFactor)) s with ⟨e, s2⟩
        rw [hmk] at hloop
        cases e with
        | some err => exact hloop
        | none => exact ⟨hloop.1, hloop.2.1, hloop.2.2⟩
      · simp only [hgt, if_false]
        have hfold : InvS ((idxRange (n.vFactor * cfg.BaseVFactor) (vf * cfg.BaseVFactor)).foldl
            (fun t i => removeSlice t (cfg.Hash (cfg.ToSliceName n.identifier i))) s) :=
          foldl_pres InvS _ (fun t i ht => inv_removeSlice t _ ht) _ s hinv
        exact ⟨hfold.1, hfold.2.1, hfold.2.2⟩

lemma reachable_invS {cfg : RingCfg} {s : RingState T} (hr : Reachable cfg s) : InvS s := by
  induction hr with
  | init =>
    refine ⟨List.sorted_nil, ?_, fun _ => rfl⟩
    intro x
    simp [initState]
  | createNode n _ ih => exact inv_CreateNode _ _ n ih
  | deleteNode id _ ih => exact inv_DeleteNode _ _ id ih
  | updateNode n _ ih => exact inv_UpdateNode _ _ n ih
  | emplace k hk _ ih => exact inv_Emplace _ _ k hk ih
  | update k _ ih => exact inv_Update _ k ih
  | remove k _ ih => exact inv_Remove _ k ih

/-- C9: after every sequence of public operations, if at least one slice
exists in the ring then the unassigned pool is empty; positions can sit
in the pool only while the ring has zero slices. -/
theorem c9_pool_empty_with_slices {cfg : RingCfg} {s : RingState T}
    (hr : Reachable cfg s) (hne : s.slices ≠ []) : s.empty = [] :=
  (reachable_invS hr).2.2 hne

/-- Witness for `c9_pool_empty_with_slices` at the reachable two-node
ring `stAB`. -/
theorem c9_pool_empty_with_slices_witness : stAB.slices ≠ [] ∧ stAB.empty = [] :=
  ⟨by decide,
   c9_pool_empty_with_slices
     (Reachable.createNode _ (Reachable.createNode _ Reachable.init)) (by decide)⟩

lemma specWalkIdxs_norm {len e : Nat} (he : e < len ∨ (len = 0 ∧ e = 0)) :
    (if e = len then 0 else e) = e := by
  rcases he with h | ⟨h1, h2⟩
  · rw [if_neg (by omega)]
  · subst h2
    subst h1
    rfl

lemma specWalkIdxs_renorm (len start e : Nat) :
    specWalkIdxs len start (if e = len then 0 else e) = specWalkIdxs len start e := by
  have key : (if (if e = len then 0 else e) = len then 0 else (if e = len then 0 else e)) =
      (if e = len then 0 else e) := by
    by_cases hel : e = len
    · rw [if_pos hel]
      by_cases h0 : (0 : Nat) = len
      · rw [if_pos h0]
      · rw [if_neg h0]
    · rw [if_neg hel, if_neg hel]
  unfold specWalkIdxs
  simp only [key]

lemma specWalkIdxs_unfold (len start e : Nat)
    (he : e < len ∨ (len = 0 ∧ e = 0)) :
    specWalkIdxs len start e =
      if (if start = len then 0 else start) ≤ e then
        List.range' (if start = len then 0 else start) (e - (if start = len then 0 else start))
      else
        List.range' (if start = len then 0 else start) (len - (if start = len then 0 else start)) ++
          List.range' 0 e := by
  unfold specWalkIdxs
  rw [specWalkIdxs_norm he]

lemma specWalkIdxs_length_le (len start e : Nat)
    (he : e < len ∨ (len = 0 ∧ e = 0)) : (specWalkIdxs len start e).length ≤ len := by
  rw [specWalkIdxs_unfold len start e he]
  set s0 := if start = len then 0 else start with hs0
  split
  · rw [List.length_range']
    rcases he with h | ⟨h1, h2⟩ <;> omega
  · rename_i hgt
    rw [List.length_append, List.length_range', List.length_range']
    have hs0e : e < s0 := by omega
    rcases he with h | ⟨h1, h2⟩ <;> omega

lemma specWalkIdxs_nil (len start e : Nat)
    (he : e < len ∨ (len = 0 ∧ e = 0))
    (heq : (if start = len then 0 else start) = e) :
    specWalkIdxs len start e = [] := by
  rw [specWalkIdxs_unfold len start e he, heq, if_pos (le_refl e)]
  simp

lemma specWalkIdxs_cons (len start e : Nat) (hstart : start ≤ len)
    (he : e < len ∨ (len = 0 ∧ e = 0))
    (hne : (if start = len then 0 else start) ≠ e) :
    (if start = len then 0 else start) < len ∧
    specWalkIdxs len start e =
      (if start = len then 0 else start) ::
        specWalkIdxs len ((if start = len then 0 else start) + 1) e := by
  have hlen0 : len ≠ 0 := by
    intro h0
    rcases he with h | ⟨h1, h2⟩
    · omega
    · subst h2
      apply hne
      rw [if_pos (by omega)]
  have helt : e < len := by
    rcases he with h | ⟨h1, _⟩
    · exact h
    · omega
  set s0 := if start = len then 0 else start with hs0
  have hs0lt : s0 < len := by
    by_cases hsl : start = len
    · rw [hs0, if_pos hsl]
      omega
    · rw [hs0, if_neg hsl]
      omega
  refine ⟨hs0lt, ?_⟩
  have houter := specWalkIdxs_unfold len start e he
  rw [← hs0] at houter
  have hinner := specWalkIdxs_unfold len (s0 + 1) e he
  rw [houter, hinner]
  by_cases hcase : s0 ≤ e
  · have hlt : s0 < e := by omega
    have hsl : ¬ (s0 + 1 = len) := by omega
    rw [if_pos hcase, if_neg hsl, if_pos (by omega : s0 + 1 ≤ e)]
    have hsplit : e - s0 = (e - (s0 + 1)) + 1 := by omega
    rw [hsplit, List.range'_succ]
  · have hgt : e < s0 := by omega
    rw [if_neg hcase]
    by_cases hsl : s0 + 1 = len
    · rw [if_pos hsl, if_pos (by omega : (0 : Nat) ≤ e)]
      have h1 : len - s0 = 1 := by omega
      rw [h1, List.range'_succ, show List.range' (s0 + 1) 0 = [] from rfl]
      simp
    · rw [if_neg hsl, if_neg (by omega : ¬ (s0 + 1 ≤ e))]
      have h1 : len - s0 = (len - (s0 + 1)) + 1 := by omega
      rw [h1, List.range'_succ]
      simp

lemma convertLoop_eq_fold (sl : Nat) (H : List Nat) (e : Nat)
    (he : e < H.length ∨ (H.length = 0 ∧ e = 0)) :
    ∀ (fuel : Nat) (s : RingState T) (start : Nat), s.hashes = H → start ≤ H.length →
      (specWalkIdxs H.length start e).length < fuel →
      convertLoop sl e fuel s start =
        ((specWalkIdxs H.length start e).map fun i => H.getD i 0).foldl
          (fun t h => convertHash t sl h) s := by
  intro fuel
  induction fuel with
  | zero =>
    intro s start _ _ hfuel
    omega
  | succ n ih =>
    intro s start hhash hstart hfuel
    show (if (if start = s.hashes.length then 0 else start) = e then s
      else convertLoop sl e n
        (convertHash s sl (s.hashes.getD (if start = s.hashes.length then 0 else start) 0))
        ((if start = s.hashes.length then 0 else start) + 1)) = _
    rw [hhash]
    by_cases hse : (if start = H.length then 0 else start) = e
    · rw [if_pos hse, specWalkIdxs_nil H.length start e he hse]
      rfl
    · rw [if_neg hse]
      obtain ⟨hs0lt, hdec⟩ := specWalkIdxs_cons H.length start e hstart he hse
      rw [hdec]
      simp only [List.map_cons, List.foldl_cons]
      have hhash' : (convertHash s sl (H.getD (if start = H.length then 0 else start) 0)).hashes = H :=
        (convertHash_core s sl _).hashes.trans hhash
      exact ih _ _ hhash' (by omega) (by rw [hdec] at hfuel; simpa using Nat.lt_of_succ_lt_succ (by simpa using hfuel))

lemma foldl_convertHash_slicesByHash (sl : Nat) :
    ∀ (L : List Nat) (s : RingState T) (x : Nat),
      ((L.foldl (fun t h => convertHash t sl h) s).slicesByHash x) =
        if x ∈ L then some sl else s.slicesByHash x := by
  intro L
  induction L with
  | nil => intro s x; simp
  | cons h r ih =>
    intro s x
    rw [List.foldl_cons, ih]
    by_cases hxr : x ∈ r
    · simp [hxr]
    · by_cases hxh : x = h
      · subst hxh
        simp [hxr, convertHash_slicesByHash, mupd_self]
      · simp [hxr, hxh, convertHash_slicesByHash, mupd_ne _ _ _ hxh]

lemma reassignOps_convertHash_ne (s : RingState T) (sl sl' h x : Nat) (hxh : x ≠ h) :
    reassignOps (convertHash s sl h) sl' x = reassignOps s sl' x := by
  have hc := convertHash_core s sl h
  unfold reassignOps
  rw [hc.keysByHash, hc.contentByKey, hc.nodesBySlice, convertHash_slicesByHash,
    mupd_ne _ _ _ hxh]

lemma foldl_convertHash_ops (sl : Nat) :
    ∀ (L : List Nat), L.Nodup → ∀ (s : RingState T),
      (L.foldl (fun t h => convertHash t sl h) s).ops =
        s.ops ++ (L.map (reassignOps s sl)).flatten := by
  intro L
  induction L with
  | nil => intro _ s; simp
  | cons h r ih =>
    intro hnd s
    have hnotin : h ∉ r := (List.nodup_cons.mp hnd).1
    rw [List.foldl_cons, ih (List.nodup_cons.mp hnd).2]
    rw [List.map_congr_left
      (fun x hx => reassignOps_convertHash_ne s sl sl h x (fun hE => hnotin (hE ▸ hx)))]
    rw [convertHash_ops]
    simp [List.append_assoc]

lemma convertHashes_slicesByHash (s : RingState T) (sl start e : Nat) (circle : Bool)
    (hstart : start ≤ s.hashes.length) (hend : e ≤ s.hashes.length) :
    ∀ x, (convertHashes s sl start e circle).slicesByHash x =
      if x ∈ specAffected s.hashes start e circle then some sl else s.slicesByHash x := by
  intro x
  unfold convertHashes specAffected
  by_cases hcond : (circle ∧ start = e) ∨ (start = 0 ∧ e = s.hashes.length)
  · rw [if_pos hcond, if_pos hcond]
    exact foldl_convertHash_slicesByHash sl s.hashes s x
  · rw [if_neg hcond, if_neg hcond]
    have he' : (if e = s.hashes.length then 0 else e) < s.hashes.length ∨
        (s.hashes.length = 0 ∧ (if e = s.hashes.length then 0 else e) = 0) := by
      by_cases hel : e = s.hashes.length
      · rw [if_pos hel]
        omega
      · rw [if_neg hel]
        omega
    rw [convertLoop_eq_fold sl s.hashes (if e = s.hashes.length then 0 else e) he'
      (s.hashes.length + 1) s start rfl hstart
      (by have := specWalkIdxs_length_le s.hashes.length start
            (if e = s.hashes.length then 0 else e) he'
          omega)]
    rw [specWalkIdxs_renorm]
    exact foldl_convertHash_slicesByHash sl _ s x

lemma getD_inj_of_nodup {l : List Nat} (hnd : l.Nodup) {i j : Nat}
    (hi : i < l.length) (hj : j < l.length) (hne : i ≠ j) : l.getD i 0 ≠ l.getD j 0 := by
  rw [List.getD_eq_getElem l 0 hi, List.getD_eq_getElem l 0 hj]
  intro hE
  exact hne (List.Nodup.getElem_inj_iff hnd |>.mp hE)

lemma specWalkIdxs_mem_lt (len start e : Nat)
    (he : e < len ∨ (len = 0 ∧ e = 0)) :
    ∀ i ∈ specWalkIdxs len start e, i < len := by
  intro i hi
  rw [specWalkIdxs_unfold len start e he] at hi
  by_cases hsl : start = len
  · rw [if_pos hsl] at hi
    split at hi
    · have := List.mem_range'_1.mp hi
      rcases he with h | ⟨h1, h2⟩ <;> omega
    · rcases List.mem_append.mp hi with h | h
      · have := List.mem_range'_1.mp h
        omega
      · have := List.mem_range'_1.mp h
        rcases he with hh | ⟨h1, h2⟩ <;> omega
  · rw [if_neg hsl] at hi
    split at hi
    · have := List.mem_range'_1.mp hi
      rcases he with h | ⟨h1, h2⟩ <;> omega
    · rcases List.mem_append.mp hi with h | h
      · have := List.mem_range'_1.mp h
        omega
      · have := List.mem_range'_1.mp h
        rcases he with hh | ⟨h1, h2⟩ <;> omega

lemma specWalkIdxs_nodup (len start e : Nat)
    (he : e < len ∨ (len = 0 ∧ e = 0)) : (specWalkIdxs len start e).Nodup := by
  rw [specWalkIdxs_unfold len start e he]
  by_cases hsl : start = len
  · rw [if_pos hsl]
    split
    · exact List.nodup_range' _ _
    · rename_i hgt
      refine List.Nodup.append (List.nodup_range' _ _) (List.nodup_range' _ _) ?_
      rw [List.disjoint_left]
      intro a ha hb
      have h1 := List.mem_range'_1.mp ha
      have h2 := List.mem_range'_1.mp hb
      omega
  · rw [if_neg hsl]
    split
    · exact List.nodup_range' _ _
    · rename_i hgt
      refine List.Nodup.append (List.nodup_range' _ _) (List.nodup_range' _ _) ?_
      rw [List.disjoint_left]
      intro a ha hb
      have h1 := List.mem_range'_1.mp ha
      have h2 := List.mem_range'_1.mp hb
      omega

lemma hend_cases {len e : Nat} (hend : e ≤ len) :
    (if e = len then 0 else e) < len ∨ (len = 0 ∧ (if e = len then 0 else e) = 0) := by
  by_cases hel : e = len
  · rw [if_pos hel]
    omega
  · rw [if_neg hel]
    omega

lemma walkVals_nodup (H : List Nat) (start e : Nat) (hnd : H.Nodup) (hend : e ≤ H.length) :
    ((specWalkIdxs H.length start e).map fun i => H.getD i 0).Nodup := by
  rw [← specWalkIdxs_renorm H.length start e]
  have he' := hend_cases hend
  refine List.Nodup.map_on ?_ (specWalkIdxs_nodup H.length start _ he')
  intro x hx y hy hxy
  by_contra hne
  exact getD_inj_of_nodup hnd
    (specWalkIdxs_mem_lt H.length start _ he' x hx)
    (specWalkIdxs_mem_lt H.length start _ he' y hy) hne hxy

lemma specAffected_nodup (H : List Nat) (start e : Nat) (circle : Bool)
    (hnd : H.Nodup) (hend : e ≤ H.length) :
    (specAffected H start e circle).Nodup := by
  unfold specAffected
  split
  · exact hnd
  · exact walkVals_nodup H start e hnd hend

lemma convertHashes_ops (s : RingState T) (sl start e : Nat) (circle : Bool)
    (hstart : start ≤ s.hashes.length) (hend : e ≤ s.hashes.length)
    (hnd : s.hashes.Nodup) :
    (convertHashes s sl start e circle).ops =
      s.ops ++ ((specAffected s.hashes start e circle).map (reassignOps s sl)).flatten := by
  unfold convertHashes specAffected
  by_cases hcond : (circle ∧ start = e) ∨ (start = 0 ∧ e = s.hashes.length)
  · rw [if_pos hcond, if_pos hcond]
    exact foldl_convertHash_ops sl s.hashes hnd s
  · rw [if_neg hcond, if_neg hcond]
    have he' := @hend_cases s.hashes.length e hend
    rw [convertLoop_eq_fold sl s.hashes (if e = s.hashes.length then 0 else e) he'
      (s.hashes.length + 1) s start rfl hstart
      (by have := specWalkIdxs_length_le s.hashes.length start
            (if e = s.hashes.length then 0 else e) he'
          omega)]
    rw [specWalkIdxs_renorm]
    rw [foldl_convertHash_ops sl _ (walkVals_nodup s.hashes start e hnd hend) s]

/-- C3: for all in-range indices, convertHashes reassigns every hash
position when the wraparound flag holds with start = end or when the
range spans the full sequence, and otherwise reassigns exactly the
positions at the indices walked circularly from start (inclusive) to end
(exclusive), wrapping index len to 0, and no others. -/
theorem c3_convert_hashes_range (s : RingState T) (sl start e : Nat) (circle : Bool)
    (hstart : start ≤ s.hashes.length) (hend : e ≤ s.hashes.length) :
    ((circle ∧ start = e) ∨ (start = 0 ∧ e = s.hashes.length) →
      ∀ x, (convertHashes s sl start e circle).slicesByHash x =
        if x ∈ s.hashes then some sl else s.slicesByHash x) ∧
    (¬ ((circle ∧ start = e) ∨ (start = 0 ∧ e = s.hashes.length)) →
      ∀ x, (convertHashes s sl start e circle).slicesByHash x =
        if x ∈ (specWalkIdxs s.hashes.length start e).map (fun i => s.hashes.getD i 0)
        then some sl else s.slicesByHash x) := by
  have hchar := convertHashes_slicesByHash s sl start e circle hstart hend
  constructor
  · intro hcond x
    have hx := hchar x
    unfold specAffected at hx
    rw [if_pos hcond] at hx
    exact hx
  · intro hcond x
    have hx := hchar x
    unfold specAffected at hx
    rw [if_neg hcond] at hx
    exact hx

/-- A concrete six-position state mirroring the repository's own
convertHashes unit test. -/
def stSix : RingState Nat :=
  { initState with hashes := [1, 2, 3, 4, 7, 9],
                   slicesByHash := fun h => if h ≤ 2 then some 1 else some 3 }

/-- Witness for `c3_convert_hashes_range` at the test state `stSix` with
start 4, end 0, no wraparound. -/
theorem c3_convert_hashes_range_witness :
    (4 ≤ stSix.hashes.length ∧ 0 ≤ stSix.hashes.length) ∧
    (((false = true ∧ 4 = 0) ∨ (4 = 0 ∧ 0 = stSix.hashes.length) →
      ∀ x, (convertHashes stSix 5 4 0 false).slicesByHash x =
        if x ∈ stSix.hashes then some 5 else stSix.slicesByHash x) ∧
    (¬ ((false = true ∧ 4 = 0) ∨ (4 = 0 ∧ 0 = stSix.hashes.length)) →
      ∀ x, (convertHashes stSix 5 4 0 false).slicesByHash x =
        if x ∈ (specWalkIdxs stSix.hashes.length 4 0).map (fun i => stSix.hashes.getD i 0)
        then some 5 else stSix.slicesByHash x)) :=
  ⟨⟨by decide, by decide⟩, c3_convert_hashes_range stSix 5 4 0 false (by decide) (by decide)⟩

lemma reassignOps_countP_removed (s : RingState T) (sl h : Nat) :
    (reassignOps s sl h).countP (fun o => o.removed) = (s.keysByHash h).length := by
  unfold reassignOps keyOps
  rw [List.countP_append, List.countP_map, List.countP_map]
  simp [Function.comp_def, List.countP_true, List.countP_false]

lemma reassignOps_countP_added (s : RingState T) (sl h : Nat) :
    (reassignOps s sl h).countP (fun o => !o.removed) = (s.keysByHash h).length := by
  unfold reassignOps keyOps
  rw [List.countP_append, List.countP_map, List.countP_map]
  simp [Function.comp_def, List.countP_true, List.countP_false]

/-- C5 as amended: a convertHashes call over an in-range, duplicate-free
hash sequence emits exactly, per affected position and in walk order,
one removal notification per key stored at the position (against its old
owner) followed by one addition notification per key (against the new
owner), and nothing else; the removal and addition totals each equal the
total number of keys across the affected positions, which is the number
of affected positions only when each stores exactly one key. -/
theorem c5_reassign_ops (s : RingState T) (sl start e : Nat) (circle : Bool)
    (hstart : start ≤ s.hashes.length) (hend : e ≤ s.hashes.length)
    (hnd : s.hashes.Nodup) :
    (convertHashes s sl start e circle).ops.drop s.ops.length =
      ((specAffected s.hashes start e circle).map (reassignOps s sl)).flatten ∧
    ((convertHashes s sl start e circle).ops.drop s.ops.length).countP (fun o => o.removed) =
      ((specAffected s.hashes start e circle).map fun h => (s.keysByHash h).length).sum ∧
    ((convertHashes s sl start e circle).ops.drop s.ops.length).countP (fun o => !o.removed) =
      ((specAffected s.hashes start e circle).map fun h => (s.keysByHash h).length).sum := by
  have hops := convertHashes_ops s sl start e circle hstart hend hnd
  have hdrop : (convertHashes s sl start e circle).ops.drop s.ops.length =
      ((specAffected s.hashes start e circle).map (reassignOps s sl)).flatten := by
    rw [hops]
    exact List.drop_left _ _
  refine ⟨hdrop, ?_, ?_⟩
  · rw [hdrop, List.countP_flatten, List.map_map]
    congr 1
    refine List.map_congr_left ?_
    intro h _
    exact reassignOps_countP_removed s sl h
  · rw [hdrop, List.countP_flatten, List.map_map]
    congr 1
    refine List.map_congr_left ?_
    intro h _
    exact reassignOps_countP_added s sl h

/-- Witness for `c5_reassign_ops` at the two-key state `stTwoKeys` with
a full-circle conversion to slice 15. -/
theorem c5_reassign_ops_witness :
    (0 ≤ stTwoKeys.hashes.length ∧ 0 ≤ stTwoKeys.hashes.length ∧ stTwoKeys.hashes.Nodup) ∧
    ((convertHashes stTwoKeys 15 0 0 true).ops.drop stTwoKeys.ops.length =
      ((specAffected stTwoKeys.hashes 0 0 true).map (reassignOps stTwoKeys 15)).flatten ∧
    ((convertHashes stTwoKeys 15 0 0 true).ops.drop stTwoKeys.ops.length).countP (fun o => o.removed) =
      ((specAffected stTwoKeys.hashes 0 0 true).map fun h => (stTwoKeys.keysByHash h).length).sum ∧
    ((convertHashes stTwoKeys 15 0 0 true).ops.drop stTwoKeys.ops.length).countP (fun o => !o.removed) =
      ((specAffected stTwoKeys.hashes 0 0 true).map fun h => (stTwoKeys.keysByHash h).length).sum) :=
  ⟨⟨by decide, by decide, by decide⟩,
   c5_reassign_ops stTwoKeys 15 0 0 true (by decide) (by decide) (by decide)⟩

/-- C4 as amended: inserting a slice into a ring with zero slices moves
every pooled hash position into the ownership record owned by the new
slice, emptying the pool, and emits for every key at each moved position
a notification with ringChange=true and removed=false against the new
slice's node; the moves happen in the pool's iteration order (modelled
as insertion order), position by position. -/
theorem c4_first_slice_drains_pool (s : RingState T) (p : Nat) (node : String)
    (hnode : s.nodesBySlice p = none) (hzero : s.slices = []) :
    (insertSlice s p node).1 = none ∧
    ((insertSlice s p node).2).empty = [] ∧
    ((insertSlice s p node).2).slices = [p] ∧
    (∀ x, ((insertSlice s p node).2).slicesByHash x =
      if x ∈ s.empty then some p else s.slicesByHash x) ∧
    ((insertSlice s p node).2).ops = s.ops ++
      (s.empty.map fun h => keyOps (s.keysByHash h) s.contentByKey node false).flatten := by
  have hb : (s.nodesBySlice p).isSome = false := by simp [hnode]
  simp only [insertSlice, hb, Bool.false_eq_true, if_false, insertPreserveOrder]
  rw [hzero]
  simp only [findIndex, List.take_nil, List.drop_nil, List.nil_append, List.length_cons,
    List.length_nil]
  split
  · obtain ⟨d1, d2, d3, d4, d5, d6, d7, d8, d9, d10⟩ :=
      drainStep_fold p s.empty
        ({ s with slices := [p], nodesBySlice := mupd s.nodesBySlice p node } : RingState T) rfl
    refine ⟨rfl, d1, by rw [d2], fun x => d9 x, ?_⟩
    show (List.foldl (drainStep p)
      ({ s with slices := [p], nodesBySlice := mupd s.nodesBySlice p node } : RingState T)
      s.empty).ops = _
    rw [d10]
    show s.ops ++ (s.empty.map fun h =>
      keyOps (s.keysByHash h) s.contentByKey ((mupd s.nodesBySlice p node p).getD "") false).flatten = _
    simp only [mupd_self, Option.getD_some]
  · rename_i hq
    exact absurd trivial hq

/-- Witness for `c4_first_slice_drains_pool` at the two-position pool
state `stPoolTwo` with a new slice at 7. -/
theorem c4_first_slice_drains_pool_witness :
    (stPoolTwo.nodesBySlice 7 = none ∧ stPoolTwo.slices = []) ∧
    ((insertSlice stPoolTwo 7 "N").1 = none ∧
    ((insertSlice stPoolTwo 7 "N").2).empty = [] ∧
    ((insertSlice stPoolTwo 7 "N").2).slices = [7] ∧
    (∀ x, ((insertSlice stPoolTwo 7 "N").2).slicesByHash x =
      if x ∈ stPoolTwo.empty then some 7 else stPoolTwo.slicesByHash x) ∧
    ((insertSlice stPoolTwo 7 "N").2).ops = stPoolTwo.ops ++
      (stPoolTwo.empty.map fun h =>
        keyOps (stPoolTwo.keysByHash h) stPoolTwo.contentByKey "N" false).flatten) :=
  ⟨⟨by decide, by decide⟩, c4_first_slice_drains_pool stPoolTwo 7 "N" (by decide) (by decide)⟩

lemma insertHash_mem {s : RingState T} {h : Nat} (hs : List.Sorted (· < ·) s.hashes)
    (hm : h ∈ s.hashes) : insertHash s h = s := by
  obtain ⟨hlt, hget⟩ := findIndex_mem hs hm
  simp only [insertHash]
  rw [if_pos ⟨hget, hlt⟩]

/-- C10: emplacing a new key whose hash position is already tracked
while slices exist recomputes the owner as the slice at the
circular-previous index of findIndex over the slice sequence, overwrites
the ownership entry for the position with that slice unconditionally,
leaves the hash sequence unchanged, and emits exactly one notification,
for the new key, with ringChange=false, so no ring-change notification
reaches the keys already stored at the position. -/
theorem c10_emplace_existing_position (cfg : RingCfg) (s : RingState T) (k : KeyV T)
    (hk : Option String)
    (hnew : s.hashesByKey k.innerKey.key = none)
    (hsorted : List.Sorted (· < ·) s.hashes)
    (hmem : cfg.Hash (hk.getD k.innerKey.key) ∈ s.hashes)
    (hsl : s.slices ≠ []) :
    (Emplace cfg s (some k) hk).1 = none ∧
    ((Emplace cfg s (some k) hk).2).hashes = s.hashes ∧
    ((Emplace cfg s (some k) hk).2).slicesByHash (cfg.Hash (hk.getD k.innerKey.key)) =
      some (s.slices.getD (findPrevIndex s.slices (findIndex s.slices
        (cfg.Hash (hk.getD k.innerKey.key)))) 0) ∧
    ((Emplace cfg s (some k) hk).2).ops = s.ops ++
      [{ key := k.innerKey.key,
         node := (s.nodesBySlice (s.slices.getD (findPrevIndex s.slices (findIndex s.slices
           (cfg.Hash (hk.getD k.innerKey.key)))) 0)).getD "",
         payload := k.value, removed := false, updated := false, ringChange := false }] := by
  rcases hk with _ | hkv
  · have hb : (s.hashesByKey k.innerKey.key).isSome = false := by simp [hnew]
    replace hmem : cfg.Hash k.innerKey.key ∈ s.hashes := hmem
    simp only [Emplace, hb, Bool.false_eq_true, if_false]
    rw [insertHash_mem (s := { s with contentByKey := mupd s.contentByKey k.innerKey.key k.value })
      hsorted hmem]
    rw [if_neg (show ¬ (({ s with contentByKey := mupd s.contentByKey k.innerKey.key k.value } :
      RingState T).slices.length = 0) from fun h0 => hsl (List.length_eq_zero.mp h0))]
    refine ⟨trivial, rfl, ?_, ?_⟩
    · show (mupd s.slicesByHash (cfg.Hash k.innerKey.key)
        (s.slices.getD (findPrevIndex s.slices (findIndex s.slices (cfg.Hash k.innerKey.key))) 0))
        (cfg.Hash k.innerKey.key) = _
      rw [mupd_self]
      rfl
    · rfl
  · have hb : (s.hashesByKey k.innerKey.key).isSome = false := by simp [hnew]
    replace hmem : cfg.Hash hkv ∈ s.hashes := hmem
    simp only [Emplace, hb, Bool.false_eq_true, if_false]
    rw [insertHash_mem (s := { s with contentByKey := mupd s.contentByKey k.innerKey.key k.value })
      hsorted hmem]
    rw [if_neg (show ¬ (({ s with contentByKey := mupd s.contentByKey k.innerKey.key k.value } :
      RingState T).slices.length = 0) from fun h0 => hsl (List.length_eq_zero.mp h0))]
    refine ⟨trivial, rfl, ?_, ?_⟩
    · show (mupd s.slicesByHash (cfg.Hash hkv)
        (s.slices.getD (findPrevIndex s.slices (findIndex s.slices (cfg.Hash hkv))) 0))
        (cfg.Hash hkv) = _
      rw [mupd_self]
      rfl
    · rfl

/-- Witness for `c10_emplace_existing_position`: emplacing new key k2
with hash token k (position 20, already tracked) into `stABk`. -/
theorem c10_emplace_existing_position_witness :
    (stABk.hashesByKey "k2" = none ∧ List.Sorted (· < ·) stABk.hashes ∧
      cfgBoundary.Hash ((some "k").getD "k2") ∈ stABk.hashes ∧ stABk.slices ≠ []) ∧
    ((Emplace cfgBoundary stABk (some ⟨⟨"k2", 0⟩, 0⟩) (some "k")).1 = none ∧
    ((Emplace cfgBoundary stABk (some ⟨⟨"k2", 0⟩, 0⟩) (some "k")).2).hashes = stABk.hashes ∧
    ((Emplace cfgBoundary stABk (some ⟨⟨"k2", 0⟩, 0⟩) (some "k")).2).slicesByHash
        (cfgBoundary.Hash ((some "k").getD "k2")) =
      some (stABk.slices.getD (findPrevIndex stABk.slices (findIndex stABk.slices
        (cfgBoundary.Hash ((some "k").getD "k2")))) 0) ∧
    ((Emplace cfgBoundary stABk (some ⟨⟨"k2", 0⟩, 0⟩) (some "k")).2).ops = stABk.ops ++
      [{ key := "k2",
         node := (stABk.nodesBySlice (stABk.slices.getD (findPrevIndex stABk.slices
           (findIndex stABk.slices (cfgBoundary.Hash ((some "k").getD "k2")))) 0)).getD "",
         payload := 0, removed := false, updated := false, ringChange := false }]) :=
  ⟨⟨by decide, by decide, by decide, by decide⟩,
   c10_emplace_existing_position cfgBoundary stABk ⟨⟨"k2", 0⟩, 0⟩ (some "k")
     (by decide) (by decide) (by decide) (by decide)⟩

lemma insertSlice_err (s : RingState T) (p : Nat) (n : String) (e : Err)
    (h : (insertSlice s p n).1 = some e) :
    e = Err.sliceAlreadyExists ∧ (insertSlice s p n).2 = s ∧ (s.nodesBySlice p).isSome := by
  by_cases hsome : (s.nodesBySlice p).isSome
  · simp only [insertSlice, hsome, if_true] at h
    refine ⟨(Option.some.inj h).symm, ?_, hsome⟩
    simp only [insertSlice, hsome, if_true]
  · have hb : (s.nodesBySlice p).isSome = false := by simpa using hsome
    simp only [insertSlice, hb, Bool.false_eq_true, if_false] at h
    split at h <;> simp at h

lemma insertSlice_ok_sets (s : RingState T) (p : Nat) (n : String)
    (h : (insertSlice s p n).1 = none) :
    ((insertSlice s p n).2).nodesBySlice p = some n := by
  by_cases hsome : (s.nodesBySlice p).isSome
  · simp only [insertSlice, hsome, if_true] at h
    simp at h
  · have hb : (s.nodesBySlice p).isSome = false := by simpa using hsome
    simp only [insertSlice, hb, Bool.false_eq_true, if_false]
    split
    · obtain ⟨d1, d2, d3, d4, d5, d6, d7, d8, d9, d10⟩ :=
        drainStep_fold p s.empty
          ({ s with slices := (insertPreserveOrder s.slices p findIndex).1,
                    nodesBySlice := mupd s.nodesBySlice p n } : RingState T) rfl
      show (List.foldl (drainStep p) _ _).nodesBySlice p = some n
      rw [d4]
      exact mupd_self _ _ _
    · show (convertHashes _ p _ _ _).nodesBySlice p = some n
      rw [(convertHashes_core _ p _ _ _).nodesBySlice]
      exact mupd_self _ _ _

lemma insertSlice_keeps (s : RingState T) (p : Nat) (n : String) (x : Nat) (v : String)
    (h : s.nodesBySlice x = some v) :
    ((insertSlice s p n).2).nodesBySlice x = some v := by
  by_cases hsome : (s.nodesBySlice p).isSome
  · simp only [insertSlice, hsome, if_true]
    exact h
  · have hxp : x ≠ p := by
      intro hE
      subst hE
      rw [h] at hsome
      simp at hsome
    have hb : (s.nodesBySlice p).isSome = false := by simpa using hsome
    simp only [insertSlice, hb, Bool.false_eq_true, if_false]
    split
    · obtain ⟨d1, d2, d3, d4, d5, d6, d7, d8, d9, d10⟩ :=
        drainStep_fold p s.empty
          ({ s with slices := (insertPreserveOrder s.slices p findIndex).1,
                    nodesBySlice := mupd s.nodesBySlice p n } : RingState T) rfl
      show (List.foldl (drainStep p) _ _).nodesBySlice x = some v
      rw [d4]
      show mupd s.nodesBySlice p n x = some v
      rw [mupd_ne _ _ _ hxp]
      exact h
    · show (convertHashes _ p _ _ _).nodesBySlice x = some v
      rw [(convertHashes_core _ p _ _ _).nodesBySlice]
      show mupd s.nodesBySlice p n x = some v
      rw [mupd_ne _ _ _ hxp]
      exact h

lemma insertSlice_err_or_none (s : RingState T) (p : Nat) (n : String) :
    (insertSlice s p n).1 = none ∨ (insertSlice s p n).1 = some Err.sliceAlreadyExists := by
  cases hc : (insertSlice s p n).1 with
  | none => exact Or.inl rfl
  | some e =>
    have he := (insertSlice_err s p n e hc).1
    subst he
    exact Or.inr rfl

lemma updateInsertLoop_keeps (cfg : RingCfg) (id : String) :
    ∀ (L : List Int) (s : RingState T) (x : Nat) (v : String),
      s.nodesBySlice x = some v →
      ((updateInsertLoop cfg id L s).2).nodesBySlice x = some v := by
  intro L
  induction L with
  | nil => intro s x v h; exact h
  | cons i rest ih =>
    intro s x v h
    have hkeep := insertSlice_keeps s (cfg.Hash (cfg.ToSliceName id i)) id x v h
    simp only [updateInsertLoop]
    split
    · exact hkeep
    · exact ih _ x v hkeep

lemma updateInsertLoop_err (cfg : RingCfg) (id : String) :
    ∀ (L : List Int) (s : RingState T) (e : Err),
      (updateInsertLoop cfg id L s).1 = some e →
      e = Err.sliceHashCollision ∧
      ∃ pre i post, L = pre ++ i :: post ∧
        insertSlicesFrom cfg id pre s = (none, (updateInsertLoop cfg id L s).2) ∧
        (((updateInsertLoop cfg id L s).2).nodesBySlice
          (cfg.Hash (cfg.ToSliceName id i))).isSome ∧
        ∀ j ∈ pre, ((updateInsertLoop cfg id L s).2).nodesBySlice
          (cfg.Hash (cfg.ToSliceName id j)) = some id := by
  intro L
  induction L with
  | nil => intro s e h; simp [updateInsertLoop] at h
  | cons i rest ih =>
    intro s e h
    by_cases hr : (insertSlice s (cfg.Hash (cfg.ToSliceName id i)) id).1 =
        some Err.sliceAlreadyExists
    · have herr := insertSlice_err s (cfg.Hash (cfg.ToSliceName id i)) id
        Err.sliceAlreadyExists hr
      have hE : updateInsertLoop cfg id (i :: rest) s =
          (some Err.sliceHashCollision,
            (insertSlice s (cfg.Hash (cfg.ToSliceName id i)) id).2) := by
        simp only [updateInsertLoop]
        rw [if_pos hr]
      rw [hE] at h ⊢
      refine ⟨(Option.some.inj h).symm, [], i, rest, rfl, ?_, ?_,
        fun j hj => absurd hj (List.not_mem_nil j)⟩
      · simp only [insertSlicesFrom]
        exact congrArg (Prod.mk none) herr.2.1.symm
      · rw [herr.2.1]
        exact herr.2.2
    · have hnone : (insertSlice s (cfg.Hash (cfg.ToSliceName id i)) id).1 = none := by
        rcases insertSlice_err_or_none s (cfg.Hash (cfg.ToSliceName id i)) id with h0 | h0
        · exact h0
        · exact absurd h0 hr
      have hE : updateInsertLoop cfg id (i :: rest) s =
          updateInsertLoop cfg id rest
            (insertSlice s (cfg.Hash (cfg.ToSliceName id i)) id).2 := by
        simp only [updateInsertLoop]
        rw [if_neg hr]
      rw [hE] at h ⊢
      obtain ⟨he, pre, i', post, hdec, hpref, hsome, hpre⟩ := ih _ e h
      refine ⟨he, i :: pre, i', post, by rw [hdec]; rfl, ?_, hsome, ?_⟩
      · simp only [insertSlicesFrom]
        rcases hins : insertSlice s (cfg.Hash (cfg.ToSliceName id i)) id with ⟨o, s1⟩
        rw [hins] at hnone hpref
        have ho : o = none := hnone
        subst ho
        exact hpref
      · intro j hj
        rcases List.mem_cons.mp hj with hj | hj
        · subst hj
          exact updateInsertLoop_keeps cfg id rest _ _ _
            (insertSlice_ok_sets s (cfg.Hash (cfg.ToSliceName id j)) id hnone)
        · exact hpre j hj

/-- C6: when UpdateNode increases an existing node's vFactor and fails, the
error is the dedicated `sliceHashCollision` (escalated from the generic
`sliceAlreadyExists` raised by insertSlice), and the implied index range
splits as pre ++ i :: post where every slice of the prefix pre was inserted
successfully (sequentially inserting pre yields no error and exactly the
returned state), the position implied by index i already has an owner in
that state (the collision), and every prefix slice is still present in the
returned ring state. -/
theorem c6_vfactor_increase_collision (cfg : RingCfg) (s : RingState T) (node : NodeV)
    (vf : Int) (e : Err)
    (h1 : s.vFactorByNode node.identifier = some vf)
    (h2 : vf < node.vFactor)
    (h3 : (UpdateNode cfg s node).1 = some e) :
    e = Err.sliceHashCollision ∧
    ∃ pre i post,
      idxRange (vf * cfg.BaseVFactor) (node.vFactor * cfg.BaseVFactor) = pre ++ i :: post ∧
      insertSlicesFrom cfg node.identifier pre s = (none, (UpdateNode cfg s node).2) ∧
      (((UpdateNode cfg s node).2).nodesBySlice
        (cfg.Hash (cfg.ToSliceName node.identifier i))).isSome ∧
      ∀ j ∈ pre, ((UpdateNode cfg s node).2).nodesBySlice
        (cfg.Hash (cfg.ToSliceName node.identifier j)) = some node.identifier := by
  have hne : ¬ node.vFactor = vf := by
    intro hE
    rw [hE] at h2
    exact lt_irrefl _ h2
  simp only [UpdateNode, h1, hne, if_false, h2, if_true] at h3 ⊢
  rcases hL : updateInsertLoop cfg node.identifier
      (idxRange (vf * cfg.BaseVFactor) (node.vFactor * cfg.BaseVFactor)) s with ⟨o, s2⟩
  rw [hL] at h3
  cases o with
  | none => exact Option.noConfusion h3
  | some e' =>
    have he' : e' = e := Option.some.inj h3
    subst he'
    have hloop := updateInsertLoop_err cfg node.identifier
      (idxRange (vf * cfg.BaseVFactor) (node.vFactor * cfg.BaseVFactor)) s e'
      (by rw [hL])
    rw [hL] at hloop
    exact hloop

/-- A configuration whose virtual slice names for indices 0 and 2 collide
under the injected hash: both map to "a". -/
def cfgVF : RingCfg :=
  { Hash := fun x => x.length,
    BaseVFactor := 1,
    ToSliceName := fun _ i => if i = 0 then "a" else if i = 1 then "bb" else "a" }

/-- The ring with node N created at vFactor 1 under `cfgVF`. -/
def stVF : RingState Nat :=
  (CreateNode cfgVF initState ⟨"N", 1⟩).2

theorem c6_vfactor_increase_collision_witness :
    (stVF.vFactorByNode "N" = some 1 ∧ (1 : Int) < 3 ∧
     (UpdateNode cfgVF stVF ⟨"N", 3⟩).1 = some Err.sliceHashCollision) ∧
    (Err.sliceHashCollision = Err.sliceHashCollision ∧
     ∃ pre i post,
       idxRange (1 * cfgVF.BaseVFactor) (3 * cfgVF.BaseVFactor) = pre ++ i :: post ∧
       insertSlicesFrom cfgVF "N" pre stVF = (none, (UpdateNode cfgVF stVF ⟨"N", 3⟩).2) ∧
       (((UpdateNode cfgVF stVF ⟨"N", 3⟩).2).nodesBySlice
         (cfgVF.Hash (cfgVF.ToSliceName "N" i))).isSome ∧
       ∀ j ∈ pre, ((UpdateNode cfgVF stVF ⟨"N", 3⟩).2).nodesBySlice
         (cfgVF.Hash (cfgVF.ToSliceName "N" j)) = some "N") :=
  ⟨⟨rfl, by decide, rfl⟩,
   c6_vfactor_increase_collision cfgVF stVF ⟨"N", 3⟩ 1 Err.sliceHashCollision
     rfl (by decide) rfl⟩

lemma findIndex_le_iff {H : List Nat} (hs : List.Sorted (· < ·) H) {v i : Nat}
    (hi : i < H.length) : findIndex H v ≤ i ↔ v ≤ H.getD i 0 := by
  constructor
  · intro h
    have h1 : findIndex H v < H.length := lt_of_le_of_lt h hi
    exact le_trans (findIndex_pred_at H v h1) (sorted_getD_mono hs h hi)
  · intro h
    by_contra hc
    push_neg at hc
    exact absurd h (not_le.mpr (findIndex_min H v i hc))

lemma getLastD_eq_getD {S : List Nat} (hne : S ≠ []) :
    S.getLastD 0 = S.getD (S.length - 1) 0 := by
  have hlen : 0 < S.length := List.length_pos.mpr hne
  rw [List.getLastD_eq_getLast?, List.getLast?_eq_getElem?,
    List.getD_eq_getElem?_getD]

lemma insertPO_fst {α : Type} (arr : List α) (v : α) (fi : List α → α → Nat) :
    (insertPreserveOrder arr v fi).1 = arr.take (fi arr v) ++ v :: arr.drop (fi arr v) := rfl

lemma insertPO_snd {α : Type} (arr : List α) (v : α) (fi : List α → α → Nat) :
    (insertPreserveOrder arr v fi).2 = fi arr v := rfl

lemma insertPO_getD_lt {S : List Nat} {p k idx : Nat} (hidx : idx ≤ S.length) (hk : k < idx) :
    (S.take idx ++ p :: S.drop idx).getD k 0 = S.getD k 0 := by
  have hkt : k < (S.take idx).length := by
    rw [List.length_take]
    omega
  rw [List.getD_append _ _ _ _ hkt, List.getD_eq_getElem _ 0 hkt,
    List.getElem_take, List.getD_eq_getElem S 0 (by omega)]

lemma insertPO_getD_self {S : List Nat} {p idx : Nat} (hidx : idx ≤ S.length) :
    (S.take idx ++ p :: S.drop idx).getD idx 0 = p := by
  have hlt : (S.take idx).length = idx := by
    rw [List.length_take]
    omega
  rw [List.getD_append_right _ _ _ _ (by omega), hlt]
  simp

lemma insertPO_getD_gt {S : List Nat} {p k idx : Nat} (hidx : idx ≤ S.length)
    (hk1 : idx < k) (hk2 : k ≤ S.length) :
    (S.take idx ++ p :: S.drop idx).getD k 0 = S.getD (k - 1) 0 := by
  have hlt : (S.take idx).length = idx := by
    rw [List.length_take]
    omega
  rw [List.getD_append_right _ _ _ _ (by omega), hlt]
  obtain ⟨m, hm⟩ : ∃ m, k - idx = m + 1 := ⟨k - idx - 1, by omega⟩
  rw [hm, List.getD_cons_succ]
  rw [List.getD_eq_getElem _ 0 (by rw [List.length_drop]; omega),
    List.getElem_drop, List.getD_eq_getElem S 0 (by omega)]
  congr 1
  omega

lemma findIndex_eq_of {L : List Nat} {v : Nat} :
    ∀ {i : Nat}, i ≤ L.length →
      (∀ k, k < i → L.getD k 0 < v) →
      (i < L.length → v ≤ L.getD i 0) → findIndex L v = i := by
  induction L with
  | nil =>
    intro i hi _ _
    simp only [List.length_nil, Nat.le_zero] at hi
    simp [findIndex, hi]
  | cons a t ih =>
    intro i hi hlt hge
    cases i with
    | zero =>
      have := hge (by simp)
      simp only [List.getD_cons_zero] at this
      simp [findIndex, this]
    | succ j =>
      have ha := hlt 0 (by omega)
      simp only [List.getD_cons_zero] at ha
      have hna : ¬ v ≤ a := by omega
      simp only [findIndex, hna, if_false]
      have hrec : findIndex t v = j := by
        refine ih (by simpa using hi) (fun k hk => ?_) (fun hj => ?_)
        · have := hlt (k + 1) (by omega)
          simpa using this
        · have := hge (by simpa using Nat.succ_lt_succ hj)
          simpa using this
      omega

lemma findIndex_insert {S : List Nat} {p : Nat} :
    findIndex (S.take (findIndex S p) ++ p :: S.drop (findIndex S p)) p = findIndex S p := by
  have hle := findIndex_le_length S p
  refine findIndex_eq_of ?_ (fun k hk => ?_) (fun _ => ?_)
  · rw [length_insertPO hle]
    omega
  · rw [insertPO_getD_lt hle hk]
    exact findIndex_min S p k hk
  · rw [insertPO_getD_self hle]

lemma specOwner_low {S : List Nat} (hs : List.Sorted (· < ·) S) {x : Nat}
    (hx : x < S.getD 0 0) : specOwner S x = S.getLastD 0 := by
  have hfil : S.filter (fun y => y ≤ x) = [] := by
    rw [List.filter_eq_nil_iff]
    intro a ha
    rcases mem_iff_getD.mp ha with ⟨i, hi, rfl⟩
    have h0 : S.getD 0 0 ≤ S.getD i 0 := sorted_getD_mono hs (Nat.zero_le i) hi
    simp only [decide_eq_true_eq]
    omega
  unfold specOwner
  rw [hfil]
  rfl

lemma specOwner_from {S : List Nat} (hs : List.Sorted (· < ·) S) {x j : Nat}
    (hj : j < S.length) (h1 : S.getD j 0 ≤ x) (h2 : j + 1 < S.length → x < S.getD (j + 1) 0) :
    specOwner S x = S.getD j 0 := by
  have hfil1 : (S.take (j + 1)).filter (fun y => y ≤ x) = S.take (j + 1) := by
    rw [List.filter_eq_self]
    intro a ha
    rcases List.mem_iff_getElem.mp ha with ⟨k, hk, rfl⟩
    have hkj : k ≤ j := by
      rw [List.length_take] at hk
      omega
    have hkS : k < S.length := by omega
    have hka : (S.take (j + 1))[k] = S.getD k 0 := by
      rw [List.getElem_take, List.getD_eq_getElem S 0 hkS]
    have hmono : S.getD k 0 ≤ S.getD j 0 := sorted_getD_mono hs hkj hj
    have hle2 : S.getD k 0 ≤ x := le_trans hmono h1
    simp only [decide_eq_true_eq, hka]
    exact hle2
  have hfil2 : (S.drop (j + 1)).filter (fun y => y ≤ x) = [] := by
    rw [List.filter_eq_nil_iff]
    intro a ha
    by_cases hj1 : j + 1 < S.length
    · have hha := drop_head_le hs hj1 a ha
      have hxlt := h2 hj1
      simp only [decide_eq_true_eq]
      omega
    · rw [List.drop_eq_nil_of_le (by omega)] at ha
      exact absurd ha (List.not_mem_nil a)
  have hkey : (S.filter (fun y => decide (y ≤ x))).getLast? = some (S.getD j 0) := by
    conv_lhs => rw [(List.take_append_drop (j + 1) S).symm]
    rw [List.filter_append, hfil1, hfil2, List.append_nil]
    have hlt : (S.take (j + 1)).length = j + 1 := by
      rw [List.length_take]
      omega
    rw [List.getLast?_eq_getElem?, hlt, Nat.add_sub_cancel,
      List.getElem?_eq_getElem (by rw [hlt]; omega)]
    rw [List.getElem_take, List.getD_eq_getElem S 0 hj]
  unfold specOwner
  rw [hkey]

lemma specWalkIdxs_mem_split (len start e : Nat) (he : e < len ∨ (len = 0 ∧ e = 0)) :
    ∀ i ∈ specWalkIdxs len start e,
      ((if start = len then 0 else start) ≤ i ∧ i < e) ∨
      (e < (if start = len then 0 else start) ∧
        (if start = len then 0 else start) ≤ i ∧ i < len) ∨
      (e < (if start = len then 0 else start) ∧ i < e) := by
  intro i hi
  rw [specWalkIdxs_unfold len start e he] at hi
  by_cases hle : (if start = len then 0 else start) ≤ e
  · rw [if_pos hle] at hi
    have := List.mem_range'_1.mp hi
    exact Or.inl ⟨this.1, by omega⟩
  · rw [if_neg hle] at hi
    push_neg at hle
    rcases List.mem_append.mp hi with h | h
    · have := List.mem_range'_1.mp h
      exact Or.inr (Or.inl ⟨hle, this.1, by omega⟩)
    · have := List.mem_range'_1.mp h
      exact Or.inr (Or.inr ⟨hle, by omega⟩)

lemma affected_mem {H : List Nat} {start e : Nat} {c : Bool}
    (hend : e ≤ H.length) : ∀ x ∈ specAffected H start e c, x ∈ H := by
  intro x hx
  unfold specAffected at hx
  split at hx
  · exact hx
  · rcases List.mem_map.mp hx with ⟨i, hi, rfl⟩
    rw [← specWalkIdxs_renorm] at hi
    exact getD_mem (specWalkIdxs_mem_lt H.length start _ (hend_cases hend) i hi)

lemma affected_bounds_nowrap {H : List Nat} (hs : List.Sorted (· < ·) H) {p q : Nat}
    (hpq : p ≤ q) :
    ∀ x ∈ specAffected H (findIndex H p) (findIndex H q) false, p ≤ x ∧ x < q := by
  intro x hx
  have hmono := findIndex_mono H hpq
  have hlep := findIndex_le_length H p
  have hleq := findIndex_le_length H q
  unfold specAffected at hx
  split at hx
  · rename_i hful
    rcases hful with ⟨hc, _⟩ | ⟨h0, hlen⟩
    · exact absurd hc (by simp)
    · rcases mem_iff_getD.mp hx with ⟨i, hi, rfl⟩
      constructor
      · exact (findIndex_le_iff hs hi).mp (by omega)
      · exact findIndex_min H q i (by omega)
  · rcases List.mem_map.mp hx with ⟨i, hi, rfl⟩
    rw [← specWalkIdxs_renorm] at hi
    have he' := hend_cases hleq
    have hsplit := specWalkIdxs_mem_split H.length (findIndex H p) _ he' i hi
    have hilt := specWalkIdxs_mem_lt H.length (findIndex H p) _ he' i hi
    have hkey : findIndex H p ≤ i ∧ i < findIndex H q := by
      by_cases hA : findIndex H p = H.length
      · rw [if_pos hA] at hsplit
        by_cases hB : findIndex H q = H.length
        · rw [if_pos hB] at hsplit
          omega
        · rw [if_neg hB] at hsplit
          omega
      · rw [if_neg hA] at hsplit
        by_cases hB : findIndex H q = H.length
        · rw [if_pos hB] at hsplit
          omega
        · rw [if_neg hB] at hsplit
          omega
    exact ⟨(findIndex_le_iff hs hilt).mp hkey.1, findIndex_min H q i hkey.2⟩

lemma affected_bounds_wrap {H : List Nat} (hs : List.Sorted (· < ·) H) {p q : Nat}
    (hqp : q < p) :
    ∀ x ∈ specAffected H (findIndex H p) (findIndex H q) true, p ≤ x ∨ x < q := by
  intro x hx
  have hmono := findIndex_mono H (le_of_lt hqp)
  have hlep := findIndex_le_length H p
  have hleq := findIndex_le_length H q
  unfold specAffected at hx
  split at hx
  · rename_i hful
    rcases mem_iff_getD.mp hx with ⟨i, hi, rfl⟩
    rcases hful with ⟨_, hse⟩ | ⟨h0, hlen⟩
    · by_cases hip : findIndex H p ≤ i
      · exact Or.inl ((findIndex_le_iff hs hi).mp hip)
      · exact Or.inr (findIndex_min H q i (by omega))
    · omega
  · rcases List.mem_map.mp hx with ⟨i, hi, rfl⟩
    rw [← specWalkIdxs_renorm] at hi
    have he' := hend_cases hleq
    have hsplit := specWalkIdxs_mem_split H.length (findIndex H p) _ he' i hi
    have hilt := specWalkIdxs_mem_lt H.length (findIndex H p) _ he' i hi
    have hkey : findIndex H p ≤ i ∨ i < findIndex H q := by
      by_cases hA : findIndex H p = H.length
      · rw [if_pos hA] at hsplit
        by_cases hB : findIndex H q = H.length
        · rw [if_pos hB] at hsplit
          omega
        · rw [if_neg hB] at hsplit
          omega
      · rw [if_neg hA] at hsplit
        by_cases hB : findIndex H q = H.length
        · rw [if_pos hB] at hsplit
          omega
        · rw [if_neg hB] at hsplit
          omega
    rcases hkey with h | h
    · exact Or.inl ((findIndex_le_iff hs hilt).mp h)
    · exact Or.inr (findIndex_min H q i h)

lemma insertSlice_eq (s : RingState T) (p : Nat) (node : String)
    (hb : s.nodesBySlice p = none) (hne : s.slices ≠ []) :
    (insertSlice s p node).2 =
      convertHashes
        ({ s with slices := (insertPreserveOrder s.slices p findIndex).1,
                  nodesBySlice := mupd s.nodesBySlice p node } : RingState T)
        p (findIndex s.hashes p)
        (findIndex s.hashes
          ((insertPreserveOrder s.slices p findIndex).1.getD
            (findNextIndex (insertPreserveOrder s.slices p findIndex).1
              (insertPreserveOrder s.slices p findIndex).2) 0))
        (decide
          ((insertPreserveOrder s.slices p findIndex).1.getD
            (findNextIndex (insertPreserveOrder s.slices p findIndex).1
              (insertPreserveOrder s.slices p findIndex).2) 0 < p)) := by
  have hb' : (s.nodesBySlice p).isSome = false := by
    rw [hb]
    rfl
  have hlen : ¬ (insertPreserveOrder s.slices p findIndex).1.length = 1 := by
    rw [insertPO_fst, length_insertPO (findIndex_le_length s.slices p)]
    have : s.slices.length ≠ 0 := fun h => hne (List.length_eq_zero.mp h)
    omega
  simp only [insertSlice, hb', Bool.false_eq_true, if_false]
  split
  · rename_i h
    exact absurd h hlen
  · rfl

lemma removeSlice_slicesByHash (t : RingState T) (p : Nat)
    (hsome : (t.nodesBySlice p).isNone = false) (hlen : ¬ t.slices.length = 1) :
    (removeSlice t p).slicesByHash =
      (convertHashes t (t.slices.getD (findPrevIndex t.slices (findIndex t.slices p)) 0)
        (findIndex t.hashes p)
        (findIndex t.hashes (t.slices.getD (findNextIndex t.slices (findIndex t.slices p)) 0))
        (decide (t.slices.getD (findNextIndex t.slices (findIndex t.slices p)) 0 < p))
        ).slicesByHash := by
  simp only [removeSlice, hsome, Bool.false_eq_true, if_false]
  rw [if_neg hlen]

lemma owner_of_affected {S H : List Nat} (hsS : List.Sorted (· < ·) S)
    (hsH : List.Sorted (· < ·) H) (hne : S ≠ []) {p : Nat} (hp : p ∉ S)
    {L : List Nat} {q r : Nat}
    (hLe : L = S.take (findIndex S p) ++ p :: S.drop (findIndex S p))
    (hqe : q = L.getD (findNextIndex L (findIndex S p)) 0)
    (hre : r = L.getD (findPrevIndex L (findIndex S p)) 0) :
    ∀ x ∈ specAffected H (findIndex H p) (findIndex H q) (decide (q < p)),
      specOwner S x = r := by
  intro x hx
  have hidx := findIndex_le_length S p
  have hn : 0 < S.length := List.length_pos.mpr hne
  have hLlen : L.length = S.length + 1 := by
    rw [hLe]
    exact length_insertPO hidx
  by_cases hcase : findIndex S p = S.length
  · have hnext0 : findNextIndex L (findIndex S p) = 0 := by
      unfold findNextIndex
      rw [if_pos (by rw [hcase, hLlen])]
    have hq0 : q = S.getD 0 0 := by
      rw [hqe, hnext0, hLe, hcase, List.take_length, List.drop_length,
        List.getD_append _ _ _ _ hn]
    have hr : r = S.getD (S.length - 1) 0 := by
      rw [hre, hLe, hcase, List.take_length, List.drop_length]
      unfold findPrevIndex
      rw [if_neg (by omega)]
      rw [List.getD_append _ _ _ _ (by omega)]
    have hqp : q < p := by
      rw [hq0]
      exact findIndex_min S p 0 (by omega)
    have hxt : x ∈ specAffected H (findIndex H p) (findIndex H q) true := by
      rwa [decide_eq_true hqp] at hx
    rcases affected_bounds_wrap hsH hqp x hxt with hge | hlt
    · rw [hr]
      refine specOwner_from hsS (by omega) ?_ (fun h => absurd h (by omega))
      have := findIndex_min S p (S.length - 1) (by omega)
      omega
    · rw [hr, specOwner_low hsS (by rw [hq0] at hlt; exact hlt), getLastD_eq_getD hne]
  · have hidxlt : findIndex S p < S.length := by omega
    have hnext : findNextIndex L (findIndex S p) = findIndex S p + 1 := by
      unfold findNextIndex
      rw [if_neg (by rw [hLlen]; omega)]
    have hqv : q = S.getD (findIndex S p) 0 := by
      rw [hqe, hnext, hLe, insertPO_getD_gt hidx (by omega) (by omega)]
      simp
    have hpq : p < q := by
      have h1 := findIndex_pred_at S p hidxlt
      have h2 : S.getD (findIndex S p) 0 ≠ p := by
        intro hE
        exact hp (hE ▸ getD_mem hidxlt)
      omega
    have hxf : x ∈ specAffected H (findIndex H p) (findIndex H q) false := by
      rwa [decide_eq_false (not_lt.mpr (le_of_lt hpq))] at hx
    obtain ⟨hpx, hxq⟩ := affected_bounds_nowrap hsH (le_of_lt hpq) x hxf
    by_cases h0 : findIndex S p = 0
    · have hrv : r = S.getD (S.length - 1) 0 := by
        rw [hre, hLe, h0]
        unfold findPrevIndex
        rw [if_pos rfl]
        simp only [List.take_zero, List.drop_zero, List.nil_append, List.length_cons,
          Nat.add_sub_cancel]
        obtain ⟨m, hm⟩ : ∃ m, S.length = m + 1 := ⟨S.length - 1, by omega⟩
        rw [hm, List.getD_cons_succ]
        simp
      have hxlow : x < S.getD 0 0 := by
        have hq0 := hqv
        rw [h0] at hq0
        omega
      rw [hrv, specOwner_low hsS hxlow, getLastD_eq_getD hne]
    · have hrv : r = S.getD (findIndex S p - 1) 0 := by
        rw [hre, hLe]
        unfold findPrevIndex
        rw [if_neg h0]
        exact insertPO_getD_lt hidx (by omega)
      rw [hrv]
      refine specOwner_from hsS (by omega) ?_ ?_
      · have := findIndex_min S p (findIndex S p - 1) (by omega)
        omega
      · intro _
        have he : findIndex S p - 1 + 1 = findIndex S p := by omega
        rw [he]
        omega

/-- C2 (corrected): with at least one slice present, an absent position p,
and the ownership record satisfying invariant I3 (every tracked hash
position owned by the largest slice position at or below it, wrapping
circularly), inserting a slice at p and then immediately removing it
restores the ownership record exactly. -/
theorem c2_insert_remove_round_trip (s : RingState T) (p : Nat) (node : String)
    (hsortS : List.Sorted (· < ·) s.slices)
    (hneS : s.slices ≠ [])
    (habs : s.nodesBySlice p = none)
    (hpS : p ∉ s.slices)
    (hsortH : List.Sorted (· < ·) s.hashes)
    (hown : ∀ x ∈ s.hashes, s.slicesByHash x = some (specOwner s.slices x)) :
    ∀ x, (removeSlice (insertSlice s p node).2 p).slicesByHash x = s.slicesByHash x := by
  intro x
  rw [insertSlice_eq s p node habs hneS]
  set L := (insertPreserveOrder s.slices p findIndex).1 with hL
  set q := L.getD (findNextIndex L (insertPreserveOrder s.slices p findIndex).2) 0 with hq
  set sA : RingState T :=
    { s with slices := L, nodesBySlice := mupd s.nodesBySlice p node } with hsA
  set t := convertHashes sA p (findIndex s.hashes p) (findIndex s.hashes q)
    (decide (q < p)) with ht
  have htsl : t.slices = L :=
    (convertHashes_core sA p (findIndex s.hashes p) (findIndex s.hashes q)
      (decide (q < p))).slices
  have hth : t.hashes = s.hashes :=
    (convertHashes_core sA p (findIndex s.hashes p) (findIndex s.hashes q)
      (decide (q < p))).hashes
  have htnbs : t.nodesBySlice = mupd s.nodesBySlice p node :=
    (convertHashes_core sA p (findIndex s.hashes p) (findIndex s.hashes q)
      (decide (q < p))).nodesBySlice
  have htsbh : ∀ y, t.slicesByHash y =
      if y ∈ specAffected s.hashes (findIndex s.hashes p) (findIndex s.hashes q)
          (decide (q < p)) then some p else s.slicesByHash y :=
    fun y => convertHashes_slicesByHash sA p (findIndex s.hashes p) (findIndex s.hashes q)
      (decide (q < p)) (findIndex_le_length s.hashes p) (findIndex_le_length s.hashes q) y
  have hnN : (t.nodesBySlice p).isNone = false := by
    rw [htnbs, mupd_self]
    rfl
  have hlenL : L.length = s.slices.length + 1 := by
    rw [hL, insertPO_fst]
    exact length_insertPO (findIndex_le_length s.slices p)
  have hlen2 : ¬ t.slices.length = 1 := by
    rw [htsl, hlenL]
    have := List.length_pos.mpr hneS
    omega
  rw [removeSlice_slicesByHash t p hnN hlen2]
  have hfi : findIndex L p = findIndex s.slices p := by
    rw [hL, insertPO_fst]
    exact findIndex_insert
  rw [htsl, hth, hfi]
  have hq2 : L.getD (findNextIndex L (findIndex s.slices p)) 0 = q := by
    rw [hq, insertPO_snd]
  rw [hq2]
  rw [convertHashes_slicesByHash t (L.getD (findPrevIndex L (findIndex s.slices p)) 0)
    (findIndex s.hashes p) (findIndex s.hashes q) (decide (q < p))
    (by rw [hth]; exact findIndex_le_length s.hashes p)
    (by rw [hth]; exact findIndex_le_length s.hashes q) x]
  rw [hth, htsbh x]
  by_cases hmem : x ∈ specAffected s.hashes (findIndex s.hashes p) (findIndex s.hashes q)
      (decide (q < p))
  · rw [if_pos hmem, hown x (affected_mem (findIndex_le_length s.hashes q) x hmem)]
    exact congrArg some (owner_of_affected hsortS hsortH hneS hpS
      (by rw [hL, insertPO_fst]) hq2.symm rfl x hmem).symm
  · rw [if_neg hmem, if_neg hmem]

/-- A one-slice ring (slice 10 owned by node A) tracking the single hash
position 7, whose ownership record satisfies invariant I3. -/
def stC2 : RingState Nat :=
  { slices := [10], hashes := [7], empty := [],
    nodesBySlice := fun n => if n = 10 then some "A" else none,
    vFactorByNode := fun n => if n = "A" then some 1 else none,
    slicesByHash := fun h => if h = 7 then some 10 else none,
    keysByHash := fun _ => [], contentByKey := fun _ => none,
    hashesByKey := fun _ => none, ops := [] }

theorem c2_insert_remove_round_trip_witness :
    (List.Sorted (· < ·) stC2.slices ∧ stC2.slices ≠ [] ∧
     stC2.nodesBySlice 20 = none ∧ 20 ∉ stC2.slices ∧
     List.Sorted (· < ·) stC2.hashes ∧
     (∀ x ∈ stC2.hashes, stC2.slicesByHash x = some (specOwner stC2.slices x))) ∧
    ∀ x, (removeSlice (insertSlice stC2 20 "B").2 20).slicesByHash x =
      stC2.slicesByHash x :=
  ⟨⟨by decide, by decide, by decide, by decide, by decide, by decide⟩,
   c2_insert_remove_round_trip stC2 20 "B" (by decide) (by decide) (by decide)
     (by decide) (by decide) (by decide)⟩
